import Mathlib

set_option maxHeartbeats 1000000

namespace Mem0

/-!
Shallow embedding of the mem0-mcp extension runtime core
(`src/mem0_mcp/core/event_bus.py`, `dependency_injection.py`,
`plugin_registry.py`, `server.py`) and proofs about the claims of the
specification.
-/

/-! # Event bus (`src/mem0_mcp/core/event_bus.py`)

An `EventHandler` records the fields of the Python `EventHandler`
dataclass: the callback object (modelled by a numeric object identity),
the numeric priority value (`priority.value`), the optional filter
object, and the `once` and `weak` flags.  Dataclass equality in Python
compares these fields, which is what `DecidableEq` gives us here. -/

structure EventHandler where
  callback : Nat
  priority : Nat
  filterTag : Option Nat
  once : Bool
  weak : Bool
deriving DecidableEq, Repr

/-- `EventBus.subscribe` (event_bus.py lines 117-138): insert the new
handler before the first existing handler whose priority value is
strictly greater, i.e. after all handlers with priority `≤` its own. -/
def subscribeInsert (h : EventHandler) : List EventHandler → List EventHandler
  | [] => [h]
  | x :: xs => if h.priority < x.priority then h :: x :: xs else x :: subscribeInsert h xs

/-- The handler list obtained from a sequence of `subscribe` calls on one
topic, starting from the empty list. -/
def subscribeAll (l : List EventHandler) : List EventHandler :=
  l.foldl (fun hs h => subscribeInsert h hs) []

/-- The per-emission environment: whether each weak handler's referent is
still alive, whether each handler's filter accepts the event, and the
outcome of invoking each handler (`none` models the callback raising,
which `emit` catches and logs). -/
structure EmitEnv where
  alive : EventHandler → Bool
  accepts : EventHandler → Bool
  invoke : EventHandler → Option Nat

/-- A handler is actually invoked by `emit` iff it is not a dead weak
handler and its filter accepts the event (event_bus.py lines 216-223). -/
def activeB (env : EmitEnv) (h : EventHandler) : Bool :=
  (!(h.weak && !env.alive h)) && env.accepts h

/-- The handler loop of `EventBus.emit` (event_bus.py lines 214-234):
walk the handler list in order, skipping dead weak handlers (marking
them for removal) and handlers whose filter rejects the event; invoke
the rest, collecting the results of invocations that do not raise, and
marking `once` handlers for removal after a successful invocation.
Returns the collected results and the `handlers_to_remove` list. -/
def emitScan (env : EmitEnv) : List EventHandler → List Nat × List EventHandler
  | [] => ([], [])
  | h :: hs =>
    if h.weak && !env.alive h then
      ((emitScan env hs).1, h :: (emitScan env hs).2)
    else if !env.accepts h then emitScan env hs
    else
      match env.invoke h with
      | some r =>
        (r :: (emitScan env hs).1,
          if h.once then h :: (emitScan env hs).2 else (emitScan env hs).2)
      | none => emitScan env hs

/-- `EventBus.emit` restricted to one topic's handler list: run the
handler loop, then remove every marked handler from the list with
`list.remove` (first occurrence), as in event_bus.py lines 236-240.
Returns the results and the handler list left for later emits. -/
def emitOn (env : EmitEnv) (hs : List EventHandler) : List Nat × List EventHandler :=
  ((emitScan env hs).1, (emitScan env hs).2.foldl (fun acc h => acc.erase h) hs)

/-- Number of `emit` calls, across a sequence of emissions on one topic,
in which the given handler value is present and gets invoked (its filter
accepts and it is not a dead weak handler), whether or not the
invocation raises. -/
def invokedEmitCount : List EmitEnv → List EventHandler → EventHandler → Nat
  | [], _, _ => 0
  | e :: es, hs, h =>
    (if h ∈ hs ∧ activeB e h = true then 1 else 0) + invokedEmitCount es (emitOn e hs).2 h

/-- Number of `emit` calls, across a sequence of emissions on one topic,
in which the given handler value is present and is invoked successfully
(invocation does not raise). -/
def successEmitCount : List EmitEnv → List EventHandler → EventHandler → Nat
  | [], _, _ => 0
  | e :: es, hs, h =>
    (if h ∈ hs ∧ activeB e h = true ∧ (e.invoke h).isSome = true then 1 else 0)
      + successEmitCount es (emitOn e hs).2 h

/-! ## Basic lemmas about subscription order -/

theorem mem_subscribeInsert (h y : EventHandler) (l : List EventHandler) :
    y ∈ subscribeInsert h l ↔ y = h ∨ y ∈ l := by
  induction l with
  | nil => simp [subscribeInsert]
  | cons x xs ih =>
    rw [subscribeInsert]
    by_cases hc : h.priority < x.priority
    · rw [if_pos hc, List.mem_cons, List.mem_cons]
    · rw [if_neg hc, List.mem_cons, ih, List.mem_cons]
      tauto

theorem subscribeInsert_sorted (h : EventHandler) (l : List EventHandler)
    (hl : l.Pairwise (fun a b => a.priority ≤ b.priority)) :
    (subscribeInsert h l).Pairwise (fun a b => a.priority ≤ b.priority) := by
  induction l with
  | nil => simp [subscribeInsert]
  | cons x xs ih =>
    rw [List.pairwise_cons] at hl
    rw [subscribeInsert]
    by_cases hc : h.priority < x.priority
    · rw [if_pos hc]
      refine List.Pairwise.cons ?_ (List.Pairwise.cons hl.1 hl.2)
      intro b hb
      rcases List.mem_cons.mp hb with rfl | hb
      · exact le_of_lt hc
      · exact le_trans (le_of_lt hc) (hl.1 b hb)
    · rw [if_neg hc]
      refine List.Pairwise.cons ?_ (ih hl.2)
      intro b hb
      rcases (mem_subscribeInsert h b xs).1 hb with rfl | hb
      · exact le_of_not_lt hc
      · exact hl.1 b hb

theorem subscribeInsert_filter_eq (h : EventHandler) (l : List EventHandler) (p : Nat)
    (hl : l.Pairwise (fun a b => a.priority ≤ b.priority)) :
    (subscribeInsert h l).filter (fun x => x.priority == p)
      = l.filter (fun x => x.priority == p) ++ (if h.priority = p then [h] else []) := by
  induction l with
  | nil =>
    by_cases hp : h.priority = p
    · simp [subscribeInsert, List.filter_cons, hp]
    · simp [subscribeInsert, List.filter_cons, hp]
  | cons x xs ih =>
    rw [List.pairwise_cons] at hl
    rw [subscribeInsert]
    by_cases hc : h.priority < x.priority
    · rw [if_pos hc]
      by_cases hp : h.priority = p
      · have hxs : (x :: xs).filter (fun y => y.priority == p) = [] := by
          rw [List.filter_eq_nil_iff]
          intro a ha
          have hxa : x.priority ≤ a.priority := by
            rcases List.mem_cons.mp ha with rfl | ha
            · exact le_refl _
            · exact hl.1 a ha
          have hpa : p < a.priority := lt_of_lt_of_le (hp ▸ hc) hxa
          simp only [beq_iff_eq]
          omega
        rw [List.filter_cons, if_pos (by simp [hp]), hxs]
        simp [hp]
      · rw [List.filter_cons, if_neg (by simp [hp])]
        simp [hp]
    · rw [if_neg hc]
      rw [List.filter_cons, List.filter_cons]
      by_cases hx : x.priority = p
      · rw [if_pos (by simp [hx]), if_pos (by simp [hx]), ih hl.2]
        simp
      · rw [if_neg (by simp [hx]), if_neg (by simp [hx]), ih hl.2]

theorem subscribeAll_go_sorted_filter (l acc : List EventHandler)
    (hacc : acc.Pairwise (fun a b => a.priority ≤ b.priority)) :
    (l.foldl (fun hs h => subscribeInsert h hs) acc).Pairwise
        (fun a b => a.priority ≤ b.priority)
    ∧ ∀ p, (l.foldl (fun hs h => subscribeInsert h hs) acc).filter (fun x => x.priority == p)
        = acc.filter (fun x => x.priority == p) ++ l.filter (fun x => x.priority == p) := by
  induction l generalizing acc with
  | nil => exact ⟨by simpa using hacc, by simp⟩
  | cons h t ih =>
    have hins := subscribeInsert_sorted h acc hacc
    obtain ⟨hs, hf⟩ := ih (subscribeInsert h acc) hins
    refine ⟨by simpa only [List.foldl_cons] using hs, ?_⟩
    intro p
    simp only [List.foldl_cons]
    rw [hf p, subscribeInsert_filter_eq h acc p hacc, List.filter_cons]
    by_cases hp : h.priority = p
    · rw [if_pos hp, if_pos (by simp [hp])]
      simp
    · rw [if_neg hp, if_neg (by simp [hp])]
      simp

theorem emitScan_results_eq (env : EmitEnv) (hs : List EventHandler) :
    (emitScan env hs).1 = (hs.filter (fun h => activeB env h)).filterMap env.invoke := by
  induction hs with
  | nil => simp [emitScan]
  | cons h t ih =>
    cases hw : (h.weak && !env.alive h) with
    | true =>
      have hact : activeB env h = false := by simp [activeB, hw]
      simp [emitScan, hw, List.filter_cons, hact, ih]
    | false =>
      cases hm : env.accepts h with
      | false =>
        have hact : activeB env h = false := by simp [activeB, hm]
        simp [emitScan, hw, hm, List.filter_cons, hact, ih]
      | true =>
        have hact : activeB env h = true := by simp [activeB, hw, hm]
        cases hinv : env.invoke h with
        | some r =>
          simp [emitScan, hw, hm, hinv, List.filter_cons, List.filterMap_cons, hact, ih]
        | none =>
          simp [emitScan, hw, hm, hinv, List.filter_cons, List.filterMap_cons, hact, ih]

/-- C2: for every topic, after any sequence of subscribe calls the
handler list is sorted by ascending priority value with equal-priority
handlers in registration order (the sublist of handlers at each priority
equals, in order, the subsequence of the registration sequence at that
priority), and emit invokes the handlers it does not skip in exactly the
list order, returning their results in invocation order. -/
theorem subscribe_priority_order_emit_order (l : List EventHandler) (env : EmitEnv) :
    (subscribeAll l).Pairwise (fun a b => a.priority ≤ b.priority)
    ∧ (∀ p, (subscribeAll l).filter (fun x => x.priority == p)
        = l.filter (fun x => x.priority == p))
    ∧ (emitScan env (subscribeAll l)).1
        = ((subscribeAll l).filter (fun h => activeB env h)).filterMap env.invoke := by
  obtain ⟨hs, hf⟩ := subscribeAll_go_sorted_filter l [] (by simp)
  exact ⟨hs, fun p => by simpa using hf p, emitScan_results_eq env (subscribeAll l)⟩

/-! ## Once-handler semantics (claim C8) -/

theorem activeB_parts (env : EmitEnv) (h : EventHandler) (hact : activeB env h = true) :
    (h.weak && !env.alive h) = false ∧ env.accepts h = true := by
  simp only [activeB, Bool.and_eq_true, Bool.not_eq_true'] at hact
  exact hact

theorem foldl_erase_sublist (rem hs : List EventHandler) :
    List.Sublist (rem.foldl (fun acc x => acc.erase x) hs) hs := by
  induction rem generalizing hs with
  | nil => exact List.Sublist.refl _
  | cons r rs ih => exact (ih (hs.erase r)).trans (List.erase_sublist r hs)

theorem emitOn_handlers_sublist (env : EmitEnv) (hs : List EventHandler) :
    List.Sublist (emitOn env hs).2 hs :=
  foldl_erase_sublist (emitScan env hs).2 hs

theorem count_foldl_erase (rem hs : List EventHandler) (h : EventHandler) :
    (rem.foldl (fun acc x => acc.erase x) hs).count h = hs.count h - rem.count h := by
  induction rem generalizing hs with
  | nil => simp
  | cons r rs ih =>
    rw [List.foldl_cons, ih, List.count_erase, List.count_cons]
    by_cases hr : r = h
    · subst hr
      simp
      omega
    · have h2 : (r == h) = false := by simp [hr]
      rw [h2]
      simp

/-- Every occurrence of a `once` handler that `emit` invokes successfully
is appended to `handlers_to_remove`, so the remove list holds as many
copies of it as the handler list. -/
theorem emitScan_remove_count (env : EmitEnv) (hs : List EventHandler) (h : EventHandler)
    (honce : h.once = true) (hact : activeB env h = true)
    (hsome : (env.invoke h).isSome = true) :
    (emitScan env hs).2.count h = hs.count h := by
  obtain ⟨hw, hm⟩ := activeB_parts env h hact
  obtain ⟨r, hr⟩ := Option.isSome_iff_exists.mp hsome
  induction hs with
  | nil => simp [emitScan]
  | cons x t ih =>
    by_cases hx : x = h
    · subst hx
      simp [emitScan, hw, hm, hr, honce, List.count_cons, ih]
    · have hxh : h ≠ x := Ne.symm hx
      cases hw2 : (x.weak && !env.alive x) with
      | true =>
        simp [emitScan, hw2, List.count_cons_of_ne hxh, ih]
      | false =>
        cases hm2 : env.accepts x with
        | false => simp [emitScan, hw2, hm2, List.count_cons_of_ne hxh, ih]
        | true =>
          cases hinv : env.invoke x with
          | none => simp [emitScan, hw2, hm2, hinv, List.count_cons_of_ne hxh, ih]
          | some rx =>
            cases ho : x.once with
            | false => simp [emitScan, hw2, hm2, hinv, ho, List.count_cons_of_ne hxh, ih]
            | true => simp [emitScan, hw2, hm2, hinv, ho, List.count_cons_of_ne hxh, ih]

/-- After an emit that successfully invoked a `once` handler, the handler
is absent from the topic's handler list. -/
theorem once_removed_after_success (env : EmitEnv) (hs : List EventHandler) (h : EventHandler)
    (honce : h.once = true) (hact : activeB env h = true)
    (hsome : (env.invoke h).isSome = true) :
    h ∉ (emitOn env hs).2 := by
  have hc : (emitOn env hs).2.count h = 0 := by
    show ((emitScan env hs).2.foldl (fun acc x => acc.erase x) hs).count h = 0
    rw [count_foldl_erase, emitScan_remove_count env hs h honce hact hsome]
    omega
  exact List.count_eq_zero.mp hc

theorem successEmitCount_of_not_mem (envs : List EmitEnv) (hs : List EventHandler)
    (h : EventHandler) (hnm : h ∉ hs) : successEmitCount envs hs h = 0 := by
  induction envs generalizing hs with
  | nil => rfl
  | cons e es ih =>
    rw [successEmitCount, if_neg (by tauto)]
    have hnm2 : h ∉ (emitOn e hs).2 := fun hm =>
      hnm ((emitOn_handlers_sublist e hs).subset hm)
    simpa using ih (emitOn e hs).2 hnm2

/-- C8 (amended): a handler subscribed with once=True is successfully
invoked in at most one emit call across any sequence of emits, and after
an emit in which it was successfully invoked it is absent from the
topic's handler list; a once handler whose invocation raises is not
removed (removal marking happens only after a successful invocation). -/
theorem once_handler_success_semantics (envs : List EmitEnv) (env : EmitEnv)
    (hs : List EventHandler) (h : EventHandler) (honce : h.once = true) :
    successEmitCount envs hs h ≤ 1
    ∧ (activeB env h = true → (env.invoke h).isSome = true → h ∉ (emitOn env hs).2) := by
  constructor
  · induction envs generalizing hs with
    | nil => simp [successEmitCount]
    | cons e es ih =>
      rw [successEmitCount]
      by_cases hc : h ∈ hs ∧ activeB e h = true ∧ (e.invoke h).isSome = true
      · rw [if_pos hc]
        have habs : h ∉ (emitOn e hs).2 :=
          once_removed_after_success e hs h honce hc.2.1 hc.2.2
        rw [successEmitCount_of_not_mem es _ h habs]
      · rw [if_neg hc]
        simpa using ih (emitOn e hs).2
  · intro hact hsome
    exact once_removed_after_success env hs h honce hact hsome

/-- A once handler whose single subscription raises on its first
invocation. -/
def onceH : EventHandler := ⟨0, 50, none, true, false⟩

/-- An emission in which every invocation raises. -/
def envRaise : EmitEnv := ⟨fun _ => true, fun _ => true, fun _ => none⟩

/-- An emission in which every invocation succeeds. -/
def envOk : EmitEnv := ⟨fun _ => true, fun _ => true, fun _ => some 7⟩

/-- C8 counterexample: a once handler whose first invocation raises is
invoked in two distinct emit calls (not at most one), and it is still in
the topic's handler list after the emit in which it was invoked. -/
theorem once_handler_reinvoked_cex :
    invokedEmitCount [envRaise, envOk] [onceH] onceH = 2
    ∧ onceH ∈ (emitOn envRaise [onceH]).2 := by
  constructor
  · decide
  · decide

/-- C8 witness for the amended theorem at a concrete once handler. -/
theorem once_handler_success_semantics_witness :
    onceH.once = true ∧ successEmitCount [envOk] [onceH] onceH ≤ 1 :=
  ⟨rfl, (once_handler_success_semantics [envOk] envOk [onceH] onceH rfl).1⟩

/-! ## Worker shutdown (claim C7)

`EventBus.stop` (event_bus.py lines 351-359) first sets `_running` to
`False` and only then enqueues the `None` sentinel; `EventBus._worker`
(lines 361-379) re-checks `self._running` at the top of its loop before
every `get`. -/

structure BusState where
  running : Bool
  queue : List (Option Nat)
deriving DecidableEq, Repr

/-- Effect of `EventBus.stop` on the bus state: clear the running flag,
then enqueue the `None` sentinel (event_bus.py lines 353-357). -/
def stopEnqueue (s : BusState) : BusState := ⟨false, s.queue ++ [none]⟩

/-- `EventBus._worker` resumed at the top of its `while self._running`
loop, with the running flag frozen at the given value: exit if the flag
is cleared, otherwise dequeue; a `None` sentinel breaks the loop, and an
event is processed (via emit) before looping back to the check. Returns
the events the worker processes before exiting. -/
def workerFromCheck : Bool → List (Option Nat) → List Nat
  | false, _ => []
  | true, [] => []
  | true, none :: _ => []
  | true, some e :: rest => e :: workerFromCheck true rest

/-- `EventBus._worker` resumed while already blocked inside
`self._event_queue.get()`: the pending `get` completes and that event is
processed regardless of the flag, then the loop condition is re-checked. -/
def workerFromGet (running : Bool) : List (Option Nat) → List Nat
  | [] => []
  | none :: _ => []
  | some e :: rest => e :: workerFromCheck running rest

/-- The events sitting in the queue ahead of the sentinel. -/
def preSentinelEvents (q : List (Option Nat)) : List Nat :=
  (q.takeWhile (fun x => x.isSome)).filterMap id

/-- C7: with two events already enqueued via emit_async, stop() clears
the running flag before the sentinel reaches the worker, so the worker
exits at its `while self._running` check processing none of them (or, if
it was already blocked inside `get`, processes only the first); the
claimed guarantee — both pre-sentinel events processed before exit —
fails in every interleaving. -/
theorem stop_drops_enqueued_events :
    (stopEnqueue ⟨true, [some 1, some 2]⟩).queue = [some 1, some 2, none]
    ∧ preSentinelEvents (stopEnqueue ⟨true, [some 1, some 2]⟩).queue = [1, 2]
    ∧ workerFromCheck (stopEnqueue ⟨true, [some 1, some 2]⟩).running
        (stopEnqueue ⟨true, [some 1, some 2]⟩).queue = []
    ∧ workerFromGet (stopEnqueue ⟨true, [some 1, some 2]⟩).running
        (stopEnqueue ⟨true, [some 1, some 2]⟩).queue = [1] :=
  ⟨rfl, rfl, rfl, rfl⟩

/-! # Request dispatcher (`src/mem0_mcp/core/server.py`)

`Mem0MCPServer._register_tool_with_operations` (server.py lines
239-304) merges the operation handlers contributed by operation plugins
for the tool with the tool module's built-in operations, then installs a
`tool_handler` closure that dispatches on the `operation` parameter. -/

/-- Python `dict.update`: add every pair of the second map to the first,
overwriting entries with the same key. -/
def dictUpdate (base upd : List (String × Nat)) : List (String × Nat) :=
  upd.foldl (fun acc kv =>
    if acc.any (fun e => e.1 == kv.1) then
      acc.map (fun e => if e.1 == kv.1 then kv else e)
    else acc ++ [kv]) base

/-- An operation-providing plugin: its declared target tool and its
operation map (handler objects modelled by numeric identities). -/
structure OpPlugin where
  tool : String
  ops : List (String × Nat)
deriving DecidableEq, Repr

/-- `PluginRegistry.get_operation_handlers` (plugin_registry.py lines
209-217) merged with the tool module's built-in operations (server.py
lines 246-251): start from an empty dict, merge every operation plugin
targeting the tool, then merge the built-in operations. -/
def mergedOperationHandlers (plugins : List OpPlugin) (builtins : List (String × Nat))
    (tool : String) : List (String × Nat) :=
  dictUpdate
    (plugins.foldl (fun acc p => if p.tool == tool then dictUpdate acc p.ops else acc) [])
    builtins

/-- Observable side effects of a dispatch: middleware `process_request`
and `process_response` calls, the operation handler invocation, and the
event-bus emission. -/
inductive Effect
  | mwReq (mid : Nat) (op : String)
  | mwResp (mid : Nat) (op : String)
  | handlerRun (hid : Nat) (op : String)
  | emitEvent (topic : String)
deriving DecidableEq, Repr

/-- Association lookup for string-keyed parameter/handler maps. -/
def alookupS (l : List (String × Nat)) (k : String) : Option Nat :=
  match l with
  | [] => none
  | (k2, v) :: t => if k2 == k then some v else alookupS t k

/-- String-valued association lookup (request parameters). -/
def plookupS (l : List (String × String)) (k : String) : Option String :=
  match l with
  | [] => none
  | (k2, v) :: t => if k2 == k then some v else plookupS t k

/-- The `tool_handler` closure of
`Mem0MCPServer._register_tool_with_operations` (server.py lines
254-291): read the `operation` parameter (absent or empty — falsy — gives
the required-parameter error), look it up among the merged operation
handlers (miss gives the unknown-operation error); both error paths
return a structured `error` payload before the middleware chain, the
handler, or the event emission run.  On the success path middleware
`process_request` runs in chain order, then the handler, then
`process_response` in reverse chain order, then the
`tool.<tool>.<operation>` event is emitted.  Returns the result payload
and the trace of side effects. -/
def toolHandler (toolName : String) (opHandlers : List (String × Nat))
    (mws : List Nat) (params : List (String × String)) :
    List (String × String) × List Effect :=
  match plookupS params "operation" with
  | none => ([("error", "Operation parameter is required")], [])
  | some op =>
    if op == "" then ([("error", "Operation parameter is required")], [])
    else
      match alookupS opHandlers op with
      | none => ([("error", "Unknown operation: " ++ op)], [])
      | some hid =>
        ([("result", "ok")],
          mws.map (fun m => Effect.mwReq m op)
            ++ [Effect.handlerRun hid op]
            ++ mws.reverse.map (fun m => Effect.mwResp m op)
            ++ [Effect.emitEvent ("tool." ++ toolName ++ "." ++ op)])

/-- C9: if the `operation` parameter is absent, or names no handler among
the merged operation handlers for the tool, the dispatcher returns a
structured error payload identifying the problem, and no middleware
call, no operation handler run and no event emission occurs. -/
theorem dispatch_unknown_operation (toolName : String) (plugins : List OpPlugin)
    (builtins : List (String × Nat)) (mws : List Nat) (params : List (String × String))
    (hmiss : plookupS params "operation" = none
      ∨ ∃ op, plookupS params "operation" = some op
          ∧ alookupS (mergedOperationHandlers plugins builtins toolName) op = none) :
    (∃ msg, (toolHandler toolName (mergedOperationHandlers plugins builtins toolName)
        mws params).1 = [("error", msg)])
    ∧ (toolHandler toolName (mergedOperationHandlers plugins builtins toolName)
        mws params).2 = [] := by
  rcases hmiss with habs | ⟨op, hop, hmiss⟩
  · rw [toolHandler, habs]
    exact ⟨⟨"Operation parameter is required", rfl⟩, rfl⟩
  · rw [toolHandler, hop]
    by_cases hempty : op = ""
    · subst hempty
      exact ⟨⟨"Operation parameter is required", rfl⟩, rfl⟩
    · dsimp only
      rw [if_neg (by simpa using hempty), hmiss]
      exact ⟨⟨"Unknown operation: " ++ op, rfl⟩, rfl⟩

/-- C9 witness: dispatching with the operation parameter missing, and
with an unknown operation name, both return an error payload with no
side effects. -/
theorem dispatch_unknown_operation_witness :
    ((∃ msg, (toolHandler "mem0_memory" (mergedOperationHandlers [⟨"mem0_memory", [("add", 3)]⟩]
        [("get", 4)] "mem0_memory") [1, 2] [("user_id", "u")]).1 = [("error", msg)])
      ∧ (toolHandler "mem0_memory" (mergedOperationHandlers [⟨"mem0_memory", [("add", 3)]⟩]
        [("get", 4)] "mem0_memory") [1, 2] [("user_id", "u")]).2 = [])
    ∧ ((∃ msg, (toolHandler "mem0_memory" (mergedOperationHandlers [⟨"mem0_memory", [("add", 3)]⟩]
        [("get", 4)] "mem0_memory") [1, 2] [("operation", "nonexistent_op")]).1
          = [("error", msg)])
      ∧ (toolHandler "mem0_memory" (mergedOperationHandlers [⟨"mem0_memory", [("add", 3)]⟩]
        [("get", 4)] "mem0_memory") [1, 2] [("operation", "nonexistent_op")]).2 = []) :=
  ⟨dispatch_unknown_operation "mem0_memory" [⟨"mem0_memory", [("add", 3)]⟩] [("get", 4)]
      [1, 2] [("user_id", "u")] (Or.inl rfl),
    dispatch_unknown_operation "mem0_memory" [⟨"mem0_memory", [("add", 3)]⟩] [("get", 4)]
      [1, 2] [("operation", "nonexistent_op")] (Or.inr ⟨"nonexistent_op", rfl, rfl⟩)⟩

/-! # Dependency injection container
(`src/mem0_mcp/core/dependency_injection.py`)

`Container._definitions` is a Python dict mapping each interface to a
*list object* of `DependencyDefinition`s.  Because
`create_child_container` copies that dict shallowly (`.copy()`), parent
and child can share the same list objects, so the embedding stores the
lists in an explicit heap of cells (`World.heap`) and each container maps
interfaces to cell references.  Object identities of constructed
instances are fresh numbers drawn from `World.nextObj`. -/

inductive Scope
  | singleton
  | request
  | transient
deriving DecidableEq, Repr

/-- One constructor parameter of an implementation class: its name, its
type hint (`none` models a missing hint), and whether it has a
default value. -/
structure Param where
  pname : Nat
  annot : Option Nat
  dflt : Bool
deriving DecidableEq, Repr

/-- The `implementation` slot of a `DependencyDefinition`: a plain
non-callable instance, a callable that is not a class (function/lambda),
or a class with the given constructor parameters. -/
inductive Impl
  | value (v : Nat)
  | fn
  | cls (params : List Param)
deriving DecidableEq, Repr

/-- `DependencyDefinition`: interface key, implementation, scope,
optional name, whether a factory or async factory is configured, and the
names of constructor arguments supplied through `kwargs`. -/
structure Defn where
  interface : Nat
  impl : Impl
  scope : Scope
  name : Option Nat
  factory : Bool
  asyncFactory : Bool
  kwargs : List Nat
deriving DecidableEq, Repr

/-- Association-list lookup (first match), modelling Python dict access. -/
def alookup {β : Type} : List (Nat × β) → Nat → Option β
  | [], _ => none
  | (k2, v) :: t, k => if k2 == k then some v else alookup t k

/-- Association-list update, modelling Python dict assignment. -/
def aset {β : Type} : List (Nat × β) → Nat → β → List (Nat × β)
  | [], k, v => [(k, v)]
  | (k2, v2) :: t, k, v => if k2 == k then (k2, v) :: t else (k2, v2) :: aset t k v

/-- Association-list deletion, modelling Python dict `del`. -/
def aerase {β : Type} (l : List (Nat × β)) (k : Nat) : List (Nat × β) :=
  l.filter (fun e => !(e.1 == k))

/-- The shared mutable world: the heap of definition-list cells, the next
fresh cell reference, and the next fresh constructed-object identity. -/
structure World where
  heap : List (Nat × List Defn)
  nextRef : Nat
  nextObj : Nat
deriving DecidableEq, Repr

/-- A `Container`: `_definitions` (interface to heap cell reference),
`_singletons`, `_request_scope`, and the `_resolving` set used for
circular-dependency detection. -/
structure Container where
  defs : List (Nat × Nat)
  singletons : List (Nat × Nat)
  requestScope : List (Nat × Nat)
  resolving : List Nat
deriving DecidableEq, Repr

def emptyContainer : Container := ⟨[], [], [], []⟩

/-- The definition list a container currently sees for an interface. -/
def defsOf (w : World) (c : Container) (iface : Nat) : List Defn :=
  match alookup c.defs iface with
  | none => []
  | some r => (alookup w.heap r).getD []

/-- `Container.register` (dependency_injection.py lines 67-112): ensure
the interface has a (possibly empty) definition list; for a named
registration rebind the dict entry to a fresh list with same-named
definitions filtered out; then append the new definition to the current
list object (in place for unnamed registrations). -/
def registerDef (w : World) (c : Container) (d : Defn) : World × Container :=
  let wc1 : World × Container :=
    match alookup c.defs d.interface with
    | some _ => (w, c)
    | none =>
      (⟨aset w.heap w.nextRef [], w.nextRef + 1, w.nextObj⟩,
       {c with defs := aset c.defs d.interface w.nextRef})
  match alookup wc1.2.defs d.interface with
  | none => wc1
  | some r =>
    match d.name with
    | some n =>
      let filtered := ((alookup wc1.1.heap r).getD []).filter (fun e => !(e.name == some n))
      (⟨aset wc1.1.heap wc1.1.nextRef (filtered ++ [d]), wc1.1.nextRef + 1, wc1.1.nextObj⟩,
       {wc1.2 with defs := aset wc1.2.defs d.interface wc1.1.nextRef})
    | none =>
      (⟨aset wc1.1.heap r (((alookup wc1.1.heap r).getD []) ++ [d]), wc1.1.nextRef,
          wc1.1.nextObj⟩,
       wc1.2)

/-- `Container.unregister` (dependency_injection.py lines 284-304):
named removal rebinds the dict entry to a fresh filtered list, unnamed
removal deletes the dict entry; either way any cached singleton for the
interface is evicted.  Returns the new state and whether something was
removed. -/
def unregisterDef (w : World) (c : Container) (iface : Nat) (nm : Option Nat) :
    (World × Container) × Bool :=
  match alookup c.defs iface with
  | none => ((w, c), false)
  | some r =>
    match nm with
    | some n =>
      let cur := (alookup w.heap r).getD []
      let filtered := cur.filter (fun e => !(e.name == some n))
      ((⟨aset w.heap w.nextRef filtered, w.nextRef + 1, w.nextObj⟩,
        {c with defs := aset c.defs iface w.nextRef,
                singletons := aerase c.singletons iface}),
       decide (filtered.length < cur.length))
    | none =>
      ((w, {c with defs := aerase c.defs iface,
                   singletons := aerase c.singletons iface}),
       !((alookup w.heap r).getD []).isEmpty)

/-- `Container.create_child_container` (dependency_injection.py lines
306-311): a fresh container whose `_definitions` dict is a shallow copy
of the parent's (sharing the same definition-list cells) and whose
caches start empty. -/
def createChildContainer (c : Container) : Container :=
  ⟨c.defs, [], [], []⟩

inductive DIErr
  | noReg
  | circular
deriving DecidableEq, Repr

/-- Outcome of a resolution step: `none` models fuel exhaustion (used
only to reason about termination); otherwise the updated world and
container together with either a raised error or the resolved object. -/
abbrev ResOut := Option (World × Container × Except DIErr Nat)

abbrev ResolveFn := World → Container → Nat → Option Nat → ResOut

/-- Definition selection inside `Container.resolve` (lines 159-165):
an exact name match when a name is given, otherwise the last-registered
definition. -/
def selectFrom (ds : List Defn) (nm : Option Nat) : Option Defn :=
  match nm with
  | some n => ds.find? (fun d => d.name == some n)
  | none => ds.getLast?

/-- The constructor auto-wiring loop of `Container._create_instance`
(lines 226-243): for each parameter, skip it if supplied via kwargs or
unannotated; otherwise resolve its annotation recursively; a "no
registration" failure is swallowed when the parameter has a default and
propagated otherwise; a circular-dependency error always propagates. -/
def resolveParamsWith (res : ResolveFn) (kwargs : List Nat) :
    List Param → World → Container → ResOut
  | [], w, c => some (w, c, Except.ok 0)
  | p :: ps, w, c =>
    if p.pname ∈ kwargs then resolveParamsWith res kwargs ps w c
    else
      match p.annot with
      | none => resolveParamsWith res kwargs ps w c
      | some a =>
        match res w c a none with
        | none => none
        | some (w2, c2, Except.error DIErr.circular) =>
          some (w2, c2, Except.error DIErr.circular)
        | some (w2, c2, Except.error DIErr.noReg) =>
          if p.dflt then resolveParamsWith res kwargs ps w2 c2
          else some (w2, c2, Except.error DIErr.noReg)
        | some (w2, c2, Except.ok _) => resolveParamsWith res kwargs ps w2 c2

/-- `Container._create_instance` (lines 200-252): a plain instance is
returned as-is; an async factory, factory, or callable implementation
produces a fresh object; a class first auto-wires its constructor
parameters and then constructs a fresh object. -/
def createInstanceWith (res : ResolveFn) (w : World) (c : Container) (d : Defn) : ResOut :=
  match d.impl with
  | Impl.value v => some (w, c, Except.ok v)
  | Impl.fn => some (⟨w.heap, w.nextRef, w.nextObj + 1⟩, c, Except.ok w.nextObj)
  | Impl.cls ps =>
    if d.asyncFactory then some (⟨w.heap, w.nextRef, w.nextObj + 1⟩, c, Except.ok w.nextObj)
    else if d.factory then some (⟨w.heap, w.nextRef, w.nextObj + 1⟩, c, Except.ok w.nextObj)
    else
      match resolveParamsWith res d.kwargs ps w c with
      | none => none
      | some (w2, c2, Except.error e) => some (w2, c2, Except.error e)
      | some (w2, c2, Except.ok _) =>
        some (⟨w2.heap, w2.nextRef, w2.nextObj + 1⟩, c2, Except.ok w2.nextObj)

/-- `Container._resolve_singleton` (lines 178-185): return the cached
instance for the definition's interface if present, else create one and
cache it under the definition's interface. -/
def resolveSingletonWith (res : ResolveFn) (w : World) (c : Container) (d : Defn) : ResOut :=
  match alookup c.singletons d.interface with
  | some v => some (w, c, Except.ok v)
  | none =>
    match createInstanceWith res w c d with
    | none => none
    | some (w2, c2, Except.error e) => some (w2, c2, Except.error e)
    | some (w2, c2, Except.ok v) =>
      some (w2, {c2 with singletons := aset c2.singletons d.interface v}, Except.ok v)

/-- `Container._resolve_request` (lines 187-194). -/
def resolveRequestWith (res : ResolveFn) (w : World) (c : Container) (d : Defn) : ResOut :=
  match alookup c.requestScope d.interface with
  | some v => some (w, c, Except.ok v)
  | none =>
    match createInstanceWith res w c d with
    | none => none
    | some (w2, c2, Except.error e) => some (w2, c2, Except.error e)
    | some (w2, c2, Except.ok v) =>
      some (w2, {c2 with requestScope := aset c2.requestScope d.interface v}, Except.ok v)

/-- The body of `Container.resolve` after the circular check (lines
152-173): fail with "no registration" when the interface has no
definitions or the requested name is absent, otherwise dispatch on the
selected definition's scope. -/
def resolveFoundWith (res : ResolveFn) (w : World) (c : Container) (iface : Nat)
    (nm : Option Nat) : ResOut :=
  if (defsOf w c iface).isEmpty then some (w, c, Except.error DIErr.noReg)
  else
    match selectFrom (defsOf w c iface) nm with
    | none => some (w, c, Except.error DIErr.noReg)
    | some d =>
      match d.scope with
      | Scope.singleton => resolveSingletonWith res w c d
      | Scope.request => resolveRequestWith res w c d
      | Scope.transient => createInstanceWith res w c d

/-- `Container.resolve` (lines 135-176), with a fuel bound on recursion
depth (`none` = fuel ran out; the adequacy theorem shows enough fuel
always exists).  A re-entrant resolve of an interface already in the
`_resolving` set raises the circular-dependency error before touching
any state; otherwise the interface is added to `_resolving`, the body
runs, and the `finally` clause removes the interface again on both the
success and the error path. -/
def resolve : Nat → World → Container → Nat → Option Nat → ResOut
  | 0, _, _, _, _ => none
  | Nat.succ f, w, c, iface, nm =>
    if iface ∈ c.resolving then some (w, c, Except.error DIErr.circular)
    else
      match resolveFoundWith (resolve f) w {c with resolving := iface :: c.resolving} iface nm with
      | none => none
      | some (w2, c2, r) => some (w2, {c2 with resolving := c2.resolving.erase iface}, r)

/-! ## Association list lemmas -/

theorem alookup_aset_self {β : Type} (l : List (Nat × β)) (k : Nat) (v : β) :
    alookup (aset l k v) k = some v := by
  induction l with
  | nil => simp [aset, alookup]
  | cons e t ih =>
    obtain ⟨k2, v2⟩ := e
    rw [aset]
    by_cases hk : k2 = k
    · rw [if_pos (by simp [hk]), alookup, if_pos (by simp [hk])]
    · rw [if_neg (by simp [hk]), alookup, if_neg (by simp [hk])]
      exact ih

theorem alookup_aset_ne {β : Type} (l : List (Nat × β)) (k k' : Nat) (v : β) (h : k ≠ k') :
    alookup (aset l k v) k' = alookup l k' := by
  induction l with
  | nil => simp [aset, alookup, h]
  | cons e t ih =>
    obtain ⟨k2, v2⟩ := e
    rw [aset]
    by_cases hk : k2 = k
    · rw [if_pos (by simp [hk]), alookup, alookup]
      subst hk
      rw [if_neg (by simp [h]), if_neg (by simp [h])]
    · rw [if_neg (by simp [hk]), alookup, alookup]
      by_cases hk' : k2 = k'
      · rw [if_pos (by simp [hk']), if_pos (by simp [hk'])]
      · rw [if_neg (by simp [hk']), if_neg (by simp [hk'])]
        exact ih

theorem alookup_aerase_self {β : Type} (l : List (Nat × β)) (k : Nat) :
    alookup (aerase l k) k = none := by
  induction l with
  | nil => rfl
  | cons e t ih =>
    obtain ⟨k2, v2⟩ := e
    rw [aerase, List.filter_cons]
    by_cases hk : k2 = k
    · rw [if_neg (by simp [hk])]
      exact ih
    · rw [if_pos (by simp [hk])]
      rw [alookup, if_neg (by simp [hk])]
      exact ih

theorem alookup_mem {β : Type} (l : List (Nat × β)) (k : Nat) (v : β)
    (h : alookup l k = some v) : (k, v) ∈ l := by
  induction l with
  | nil => simp [alookup] at h
  | cons e t ih =>
    obtain ⟨k2, v2⟩ := e
    rw [alookup] at h
    by_cases hk : k2 = k
    · rw [if_pos (by simp [hk])] at h
      obtain rfl := Option.some_injective _ h
      subst hk
      exact List.mem_cons_self _ _
    · rw [if_neg (by simp [hk])] at h
      exact List.mem_cons_of_mem _ (ih h)

/-! ## State preservation through resolution

`resolve` never changes the definitions map, the heap, or the next
cell reference, and its `finally` clause restores the `_resolving` set. -/

def ResPres (w : World) (c : Container) : ResOut → Prop
  | none => True
  | some (w', c', _) =>
    w'.heap = w.heap ∧ w'.nextRef = w.nextRef ∧ c'.defs = c.defs ∧ c'.resolving = c.resolving

theorem ResPres.chain {w : World} {c : Container} {w2 : World} {c2 : Container}
    {r : Except DIErr Nat} (h1 : ResPres w c (some (w2, c2, r))) {o : ResOut}
    (h2 : ResPres w2 c2 o) : ResPres w c o := by
  cases o with
  | none => trivial
  | some t =>
    obtain ⟨w3, c3, r3⟩ := t
    obtain ⟨a1, b1, d1, e1⟩ := h1
    obtain ⟨a2, b2, d2, e2⟩ := h2
    exact ⟨a2.trans a1, b2.trans b1, d2.trans d1, e2.trans e1⟩

theorem resolveParamsWith_pres (res : ResolveFn)
    (hres : ∀ w c i nm, ResPres w c (res w c i nm)) (kwargs : List Nat) :
    ∀ ps w c, ResPres w c (resolveParamsWith res kwargs ps w c) := by
  intro ps
  induction ps with
  | nil => exact fun w c => ⟨rfl, rfl, rfl, rfl⟩
  | cons p ps ih =>
    intro w c
    by_cases hk : p.pname ∈ kwargs
    · rw [resolveParamsWith, if_pos hk]
      exact ih w c
    · cases hann : p.annot with
      | none =>
        rw [resolveParamsWith, if_neg hk, hann]
        exact ih w c
      | some a =>
        have hp := hres w c a none
        cases hr : res w c a none with
        | none =>
          rw [resolveParamsWith, if_neg hk, hann]
          dsimp only
          rw [hr]
          trivial
        | some t =>
          rw [hr] at hp
          obtain ⟨w2, c2, r⟩ := t
          cases r with
          | ok v =>
            rw [resolveParamsWith, if_neg hk, hann]
            dsimp only
            rw [hr]
            exact hp.chain (ih w2 c2)
          | error e =>
            cases e with
            | circular =>
              rw [resolveParamsWith, if_neg hk, hann]
              dsimp only
              rw [hr]
              exact hp
            | noReg =>
              rw [resolveParamsWith, if_neg hk, hann]
              dsimp only
              rw [hr]
              dsimp only
              cases hd : p.dflt with
              | true =>
                rw [if_pos rfl]
                exact hp.chain (ih w2 c2)
              | false =>
                rw [if_neg Bool.false_ne_true]
                exact hp

theorem createInstanceWith_pres (res : ResolveFn)
    (hres : ∀ w c i nm, ResPres w c (res w c i nm)) (w : World) (c : Container) (d : Defn) :
    ResPres w c (createInstanceWith res w c d) := by
  cases himpl : d.impl with
  | value v => rw [createInstanceWith, himpl]; exact ⟨rfl, rfl, rfl, rfl⟩
  | fn => rw [createInstanceWith, himpl]; exact ⟨rfl, rfl, rfl, rfl⟩
  | cls ps =>
    rw [createInstanceWith, himpl]
    dsimp only
    cases haf : d.asyncFactory with
    | true =>
      rw [if_pos rfl]
      exact ⟨rfl, rfl, rfl, rfl⟩
    | false =>
      rw [if_neg Bool.false_ne_true]
      cases hf : d.factory with
      | true =>
        rw [if_pos rfl]
        exact ⟨rfl, rfl, rfl, rfl⟩
      | false =>
        rw [if_neg Bool.false_ne_true]
        have hp := resolveParamsWith_pres res hres d.kwargs ps w c
        cases hr : resolveParamsWith res d.kwargs ps w c with
        | none => trivial
        | some t =>
          rw [hr] at hp
          obtain ⟨w2, c2, r⟩ := t
          cases r with
          | error e => exact hp
          | ok v => exact hp.chain ⟨rfl, rfl, rfl, rfl⟩

theorem resolveSingletonWith_pres (res : ResolveFn)
    (hres : ∀ w c i nm, ResPres w c (res w c i nm)) (w : World) (c : Container) (d : Defn) :
    ResPres w c (resolveSingletonWith res w c d) := by
  rw [resolveSingletonWith]
  cases hc : alookup c.singletons d.interface with
  | some v => exact ⟨rfl, rfl, rfl, rfl⟩
  | none =>
    have hp := createInstanceWith_pres res hres w c d
    cases hr : createInstanceWith res w c d with
    | none => trivial
    | some t =>
      rw [hr] at hp
      obtain ⟨w2, c2, r⟩ := t
      cases r with
      | error e => exact hp
      | ok v => exact hp.chain ⟨rfl, rfl, rfl, rfl⟩

theorem resolveRequestWith_pres (res : ResolveFn)
    (hres : ∀ w c i nm, ResPres w c (res w c i nm)) (w : World) (c : Container) (d : Defn) :
    ResPres w c (resolveRequestWith res w c d) := by
  rw [resolveRequestWith]
  cases hc : alookup c.requestScope d.interface with
  | some v => exact ⟨rfl, rfl, rfl, rfl⟩
  | none =>
    have hp := createInstanceWith_pres res hres w c d
    cases hr : createInstanceWith res w c d with
    | none => trivial
    | some t =>
      rw [hr] at hp
      obtain ⟨w2, c2, r⟩ := t
      cases r with
      | error e => exact hp
      | ok v => exact hp.chain ⟨rfl, rfl, rfl, rfl⟩

theorem resolveFoundWith_pres (res : ResolveFn)
    (hres : ∀ w c i nm, ResPres w c (res w c i nm)) (w : World) (c : Container)
    (iface : Nat) (nm : Option Nat) : ResPres w c (resolveFoundWith res w c iface nm) := by
  rw [resolveFoundWith]
  by_cases hemp : (defsOf w c iface).isEmpty = true
  · rw [if_pos hemp]
    exact ⟨rfl, rfl, rfl, rfl⟩
  · rw [if_neg hemp]
    cases hsel : selectFrom (defsOf w c iface) nm with
    | none => exact ⟨rfl, rfl, rfl, rfl⟩
    | some d =>
      dsimp only
      cases hscope : d.scope with
      | singleton => exact resolveSingletonWith_pres res hres w c d
      | request => exact resolveRequestWith_pres res hres w c d
      | transient => exact createInstanceWith_pres res hres w c d

theorem resolve_pres : ∀ fuel w c iface nm, ResPres w c (resolve fuel w c iface nm) := by
  intro fuel
  induction fuel with
  | zero => intro w c iface nm; trivial
  | succ f ih =>
    intro w c iface nm
    rw [resolve]
    by_cases hin : iface ∈ c.resolving
    · rw [if_pos hin]
      exact ⟨rfl, rfl, rfl, rfl⟩
    · rw [if_neg hin]
      have hp := resolveFoundWith_pres (resolve f) ih w
        {c with resolving := iface :: c.resolving} iface nm
      cases hr : resolveFoundWith (resolve f) w
          {c with resolving := iface :: c.resolving} iface nm with
      | none => trivial
      | some t =>
        rw [hr] at hp
        obtain ⟨w2, c2, r⟩ := t
        obtain ⟨h1, h2, h3, h4⟩ := hp
        refine ⟨h1, h2, h3, ?_⟩
        show (c2.resolving.erase iface) = c.resolving
        rw [h4]
        exact List.erase_cons_head iface c.resolving

/-! ## Fuel adequacy: `resolve` cannot hang

Every interface that proceeds past the circular check is added to the
`_resolving` set, while the definitions map never changes, so the
recursion depth is bounded by the number of registered interfaces not
already being resolved. -/

theorem filter_sublist_filter {α : Type} (l : List α) (p q : α → Bool)
    (himp : ∀ x, q x = true → p x = true) :
    List.Sublist (l.filter q) (l.filter p) := by
  induction l with
  | nil => simp
  | cons x t ih =>
    rw [List.filter_cons, List.filter_cons]
    cases hq : q x with
    | true =>
      rw [if_pos rfl, if_pos (himp x hq)]
      exact ih.cons₂ x
    | false =>
      rw [if_neg Bool.false_ne_true]
      cases hp : p x with
      | true => rw [if_pos rfl]; exact ih.cons x
      | false => rw [if_neg Bool.false_ne_true]; exact ih

theorem filter_length_lt {α : Type} (l : List α) (p q : α → Bool)
    (himp : ∀ x, q x = true → p x = true) (a : α) (ha : a ∈ l) (hpa : p a = true)
    (hqa : q a = false) : (l.filter q).length < (l.filter p).length := by
  have hsub := filter_sublist_filter l p q himp
  rcases lt_or_eq_of_le hsub.length_le with h | h
  · exact h
  · exfalso
    have heq := List.Sublist.eq_of_length hsub h
    have hmem : a ∈ l.filter p := List.mem_filter.mpr ⟨ha, hpa⟩
    rw [← heq] at hmem
    have hq := (List.mem_filter.mp hmem).2
    rw [hqa] at hq
    exact Bool.false_ne_true hq

/-- Number of registered interfaces not currently being resolved. -/
def unresolvedCount (c : Container) : Nat :=
  (c.defs.filter (fun e => decide (e.1 ∉ c.resolving))).length

theorem unresolvedCount_congr (c c' : Container) (hd : c'.defs = c.defs)
    (hr : c'.resolving = c.resolving) : unresolvedCount c' = unresolvedCount c := by
  unfold unresolvedCount
  rw [hd, hr]

theorem unresolvedCount_cons_lt (c : Container) (iface r : Nat)
    (hlk : alookup c.defs iface = some r) (hnr : iface ∉ c.resolving) :
    unresolvedCount {c with resolving := iface :: c.resolving} < unresolvedCount c := by
  have hmem := alookup_mem c.defs iface r hlk
  exact filter_length_lt c.defs
    (fun e => decide (e.1 ∉ c.resolving))
    (fun e => decide (e.1 ∉ iface :: c.resolving))
    (fun x hx => by
      rw [decide_eq_true_iff] at hx
      exact decide_eq_true_iff.mpr (fun h => hx (List.mem_cons_of_mem _ h)))
    (iface, r) hmem
    (decide_eq_true_iff.mpr hnr)
    (decide_eq_false (not_not_intro (List.mem_cons_self iface c.resolving)))

theorem resolveParamsWith_total (res : ResolveFn) (bound : Nat)
    (hres : ∀ w c i nm, unresolvedCount c + 2 ≤ bound → res w c i nm ≠ none)
    (hpres : ∀ w c i nm, ResPres w c (res w c i nm)) (kwargs : List Nat) :
    ∀ ps w c, unresolvedCount c + 2 ≤ bound →
      resolveParamsWith res kwargs ps w c ≠ none := by
  intro ps
  induction ps with
  | nil =>
    intro w c hb
    rw [resolveParamsWith]
    exact fun h => Option.noConfusion h
  | cons p ps ih =>
    intro w c hb
    by_cases hk : p.pname ∈ kwargs
    · rw [resolveParamsWith, if_pos hk]
      exact ih w c hb
    · cases hann : p.annot with
      | none =>
        rw [resolveParamsWith, if_neg hk, hann]
        dsimp only
        exact ih w c hb
      | some a =>
        have hp := hpres w c a none
        cases hr : res w c a none with
        | none => exact absurd hr (hres w c a none hb)
        | some t =>
          rw [hr] at hp
          obtain ⟨w2, c2, r⟩ := t
          have hμ : unresolvedCount c2 = unresolvedCount c :=
            unresolvedCount_congr c c2 hp.2.2.1 hp.2.2.2
          rw [resolveParamsWith, if_neg hk, hann]
          dsimp only
          rw [hr]
          cases r with
          | ok v => exact ih w2 c2 (by rw [hμ]; exact hb)
          | error e =>
            cases e with
            | circular => exact fun h => Option.noConfusion h
            | noReg =>
              dsimp only
              cases hd : p.dflt with
              | true => rw [if_pos rfl]; exact ih w2 c2 (by rw [hμ]; exact hb)
              | false =>
                rw [if_neg Bool.false_ne_true]
                exact fun h => Option.noConfusion h

theorem createInstanceWith_total (res : ResolveFn) (bound : Nat)
    (hres : ∀ w c i nm, unresolvedCount c + 2 ≤ bound → res w c i nm ≠ none)
    (hpres : ∀ w c i nm, ResPres w c (res w c i nm)) (w : World) (c : Container) (d : Defn)
    (hb : unresolvedCount c + 2 ≤ bound) : createInstanceWith res w c d ≠ none := by
  cases himpl : d.impl with
  | value v => rw [createInstanceWith, himpl]; exact fun h => Option.noConfusion h
  | fn => rw [createInstanceWith, himpl]; exact fun h => Option.noConfusion h
  | cls ps =>
    rw [createInstanceWith, himpl]
    dsimp only
    cases haf : d.asyncFactory with
    | true => rw [if_pos rfl]; exact fun h => Option.noConfusion h
    | false =>
      rw [if_neg Bool.false_ne_true]
      cases hf : d.factory with
      | true => rw [if_pos rfl]; exact fun h => Option.noConfusion h
      | false =>
        rw [if_neg Bool.false_ne_true]
        cases hr : resolveParamsWith res d.kwargs ps w c with
        | none =>
          exact absurd hr (resolveParamsWith_total res bound hres hpres d.kwargs ps w c hb)
        | some t =>
          obtain ⟨w2, c2, r⟩ := t
          cases r with
          | error e => exact fun h => Option.noConfusion h
          | ok v => exact fun h => Option.noConfusion h

theorem resolveSingletonWith_total (res : ResolveFn) (bound : Nat)
    (hres : ∀ w c i nm, unresolvedCount c + 2 ≤ bound → res w c i nm ≠ none)
    (hpres : ∀ w c i nm, ResPres w c (res w c i nm)) (w : World) (c : Container) (d : Defn)
    (hb : unresolvedCount c + 2 ≤ bound) : resolveSingletonWith res w c d ≠ none := by
  rw [resolveSingletonWith]
  cases hc : alookup c.singletons d.interface with
  | some v => exact fun h => Option.noConfusion h
  | none =>
    cases hr : createInstanceWith res w c d with
    | none => exact absurd hr (createInstanceWith_total res bound hres hpres w c d hb)
    | some t =>
      obtain ⟨w2, c2, r⟩ := t
      cases r with
      | error e => exact fun h => Option.noConfusion h
      | ok v => exact fun h => Option.noConfusion h

theorem resolveRequestWith_total (res : ResolveFn) (bound : Nat)
    (hres : ∀ w c i nm, unresolvedCount c + 2 ≤ bound → res w c i nm ≠ none)
    (hpres : ∀ w c i nm, ResPres w c (res w c i nm)) (w : World) (c : Container) (d : Defn)
    (hb : unresolvedCount c + 2 ≤ bound) : resolveRequestWith res w c d ≠ none := by
  rw [resolveRequestWith]
  cases hc : alookup c.requestScope d.interface with
  | some v => exact fun h => Option.noConfusion h
  | none =>
    cases hr : createInstanceWith res w c d with
    | none => exact absurd hr (createInstanceWith_total res bound hres hpres w c d hb)
    | some t =>
      obtain ⟨w2, c2, r⟩ := t
      cases r with
      | error e => exact fun h => Option.noConfusion h
      | ok v => exact fun h => Option.noConfusion h

theorem resolveFoundWith_total (res : ResolveFn) (bound : Nat)
    (hres : ∀ w c i nm, unresolvedCount c + 2 ≤ bound → res w c i nm ≠ none)
    (hpres : ∀ w c i nm, ResPres w c (res w c i nm)) (w : World) (c : Container)
    (iface : Nat) (nm : Option Nat) (hb : unresolvedCount c + 2 ≤ bound) :
    resolveFoundWith res w c iface nm ≠ none := by
  rw [resolveFoundWith]
  by_cases hemp : (defsOf w c iface).isEmpty = true
  · rw [if_pos hemp]
    exact fun h => Option.noConfusion h
  · rw [if_neg hemp]
    cases hsel : selectFrom (defsOf w c iface) nm with
    | none => exact fun h => Option.noConfusion h
    | some d =>
      dsimp only
      cases hscope : d.scope with
      | singleton => exact resolveSingletonWith_total res bound hres hpres w c d hb
      | request => exact resolveRequestWith_total res bound hres hpres w c d hb
      | transient => exact createInstanceWith_total res bound hres hpres w c d hb

theorem resolve_total : ∀ fuel w c iface nm, unresolvedCount c + 2 ≤ fuel →
    resolve fuel w c iface nm ≠ none := by
  intro fuel
  induction fuel with
  | zero => intro w c iface nm hb; omega
  | succ f ih =>
    intro w c iface nm hb
    rw [resolve]
    by_cases hin : iface ∈ c.resolving
    · rw [if_pos hin]
      exact fun h => Option.noConfusion h
    · rw [if_neg hin]
      by_cases hemp :
          (defsOf w {c with resolving := iface :: c.resolving} iface).isEmpty = true
      · rw [resolveFoundWith, if_pos hemp]
        exact fun h => Option.noConfusion h
      · have hlk : ∃ r, alookup c.defs iface = some r := by
          cases hl : alookup c.defs iface with
          | some r => exact ⟨r, rfl⟩
          | none =>
            exfalso
            apply hemp
            show (defsOf w {c with resolving := iface :: c.resolving} iface).isEmpty = true
            unfold defsOf
            dsimp only
            rw [hl]
            rfl
        obtain ⟨r, hr⟩ := hlk
        have hdec := unresolvedCount_cons_lt c iface r hr hin
        have hb2 : unresolvedCount {c with resolving := iface :: c.resolving} + 2 ≤ f := by
          omega
        have hfb := resolveFoundWith_total (resolve f) f ih (resolve_pres f) w
          {c with resolving := iface :: c.resolving} iface nm hb2
        cases hfbv : resolveFoundWith (resolve f) w
            {c with resolving := iface :: c.resolving} iface nm with
        | none => exact absurd hfbv hfb
        | some t =>
          obtain ⟨w2, c2, rr⟩ := t
          exact fun h => Option.noConfusion h

/-! ## Singleton caching behaviour -/

theorem defsOf_resolving (w : World) (c : Container) (j : Nat) (R : List Nat) :
    defsOf w {c with resolving := R} j = defsOf w c j := rfl

theorem selectFrom_ne_nil (ds : List Defn) (nm : Option Nat) (d : Defn)
    (h : selectFrom ds nm = some d) : ds.isEmpty = false := by
  cases ds with
  | nil =>
    exfalso
    cases nm with
    | none => simp [selectFrom] at h
    | some n => simp [selectFrom] at h
  | cons x t => rfl

/-- If the selected definition for an interface is singleton-scoped and
an instance is already cached under the definition's interface, then
`resolve` returns exactly the cached instance and leaves the whole state
unchanged. -/
theorem resolve_singleton_cache_hit (f : Nat) (w : World) (c : Container) (iface : Nat)
    (nm : Option Nat) (d : Defn) (v : Nat)
    (hnr : iface ∉ c.resolving)
    (hsel : selectFrom (defsOf w c iface) nm = some d)
    (hscope : d.scope = Scope.singleton)
    (hcache : alookup c.singletons d.interface = some v) :
    resolve (f + 1) w c iface nm = some (w, c, Except.ok v) := by
  rw [resolve, if_neg hnr, resolveFoundWith, defsOf_resolving,
    if_neg (by rw [selectFrom_ne_nil _ _ _ hsel]; exact Bool.false_ne_true), hsel]
  dsimp only
  rw [hscope]
  dsimp only
  rw [resolveSingletonWith]
  dsimp only
  rw [hcache]
  dsimp only
  rw [List.erase_cons_head]

/-- A successful singleton resolve leaves the created (or cached)
instance cached in the returned container under the definition's
interface. -/
theorem resolve_singleton_caches (f : Nat) (w : World) (c : Container) (iface : Nat)
    (nm : Option Nat) (d : Defn) (w1 : World) (c1 : Container) (v : Nat)
    (hnr : iface ∉ c.resolving)
    (hsel : selectFrom (defsOf w c iface) nm = some d)
    (hscope : d.scope = Scope.singleton)
    (h1 : resolve (f + 1) w c iface nm = some (w1, c1, Except.ok v)) :
    alookup c1.singletons d.interface = some v := by
  rw [resolve, if_neg hnr, resolveFoundWith, defsOf_resolving,
    if_neg (by rw [selectFrom_ne_nil _ _ _ hsel]; exact Bool.false_ne_true), hsel] at h1
  dsimp only at h1
  rw [hscope] at h1
  dsimp only at h1
  rw [resolveSingletonWith] at h1
  cases hc : alookup c.singletons d.interface with
  | some v0 =>
    rw [hc] at h1
    dsimp only at h1
    rw [List.erase_cons_head] at h1
    simp only [Option.some.injEq, Prod.mk.injEq, Except.ok.injEq] at h1
    obtain ⟨hw, hcc, hv⟩ := h1
    rw [← hcc, ← hv]
    exact hc
  | none =>
    rw [hc] at h1
    dsimp only at h1
    cases hcr : createInstanceWith (resolve f) w
        {c with resolving := iface :: c.resolving} d with
    | none => rw [hcr] at h1; exact absurd h1 (by simp)
    | some t =>
      obtain ⟨w2, c2, r⟩ := t
      rw [hcr] at h1
      cases r with
      | error e => simp at h1
      | ok v2 =>
        dsimp only at h1
        simp only [Option.some.injEq, Prod.mk.injEq, Except.ok.injEq] at h1
        obtain ⟨hw, hcc, hv⟩ := h1
        rw [← hcc]
        show alookup (aset c2.singletons d.interface v2) d.interface = some v
        rw [alookup_aset_self, hv]

theorem defsOf_congr (w w' : World) (c c' : Container) (j : Nat)
    (hh : w'.heap = w.heap) (hd : c'.defs = c.defs) : defsOf w' c' j = defsOf w c j := by
  unfold defsOf
  rw [hh, hd]

/-- An unnamed `register` for an interface that already has a definition
list appends the definition to that list object in place: only the heap
cell changes, the container itself (its map and caches) is untouched. -/
theorem registerDef_unnamed_existing (w : World) (c : Container) (d : Defn) (r : Nat)
    (hr : alookup c.defs d.interface = some r) (hnm : d.name = none) :
    registerDef w c d
      = (⟨aset w.heap r (((alookup w.heap r).getD []) ++ [d]), w.nextRef, w.nextObj⟩, c) := by
  simp only [registerDef, hr, hnm]

/-- `register` never touches the singleton cache, the request scope, or
the resolving set. -/
theorem registerDef_caches (w : World) (c : Container) (d : Defn) :
    (registerDef w c d).2.singletons = c.singletons
    ∧ (registerDef w c d).2.requestScope = c.requestScope
    ∧ (registerDef w c d).2.resolving = c.resolving := by
  rw [registerDef]
  dsimp only
  cases h1 : alookup c.defs d.interface with
  | some r =>
    dsimp only
    rw [h1]
    dsimp only
    cases hnm : d.name with
    | some n => exact ⟨rfl, rfl, rfl⟩
    | none => exact ⟨rfl, rfl, rfl⟩
  | none =>
    dsimp only
    rw [alookup_aset_self]
    dsimp only
    cases hnm : d.name with
    | some n => exact ⟨rfl, rfl, rfl⟩
    | none => exact ⟨rfl, rfl, rfl⟩

/-! ## Claim C3: singleton stability -/

/-- A sequence of `resolve` calls on one interface, threading the
mutable state; returns the instances the calls produced. -/
def resolveCalls (fuel iface : Nat) : Nat → World → Container → Option (List Nat × World × Container)
  | 0, w, c => some ([], w, c)
  | Nat.succ n, w, c =>
    match resolve fuel w c iface none with
    | some (w', c', Except.ok v) =>
      match resolveCalls fuel iface n w' c' with
      | some (vs, w'', c'') => some (v :: vs, w'', c'')
      | none => none
    | _ => none

/-- C3: once the first resolve of a singleton-bound interface X has
created and cached an instance, every later resolve (any number of
calls) returns the identical cached instance with the state unchanged;
re-registering X (unnamed, singleton scope) does not cause a new
instance to be created — resolve still returns the cached one — and
unregister evicts the cached singleton. -/
theorem singleton_resolve_stable (f : Nat) (w : World) (c : Container) (X : Nat)
    (d : Defn) (w1 : World) (c1 : Container) (v : Nat)
    (hnr : X ∉ c.resolving)
    (hsel : selectFrom (defsOf w c X) none = some d)
    (hscope : d.scope = Scope.singleton)
    (hiface : d.interface = X)
    (h1 : resolve (f + 1) w c X none = some (w1, c1, Except.ok v)) :
    alookup c1.singletons X = some v
    ∧ (∀ n, resolveCalls (f + 1) X n w1 c1 = some (List.replicate n v, w1, c1))
    ∧ (∀ d', d'.scope = Scope.singleton → d'.interface = X → d'.name = none →
        resolve (f + 1) (registerDef w1 c1 d').1 (registerDef w1 c1 d').2 X none
          = some ((registerDef w1 c1 d').1, (registerDef w1 c1 d').2, Except.ok v))
    ∧ alookup ((unregisterDef w1 c1 X none).1.2).singletons X = none := by
  have hp := resolve_pres (f + 1) w c X none
  rw [h1] at hp
  obtain ⟨hh, hnref, hdefs, hres⟩ := hp
  have hcache1 : alookup c1.singletons X = some v := by
    rw [← hiface]
    exact resolve_singleton_caches f w c X none d w1 c1 v hnr hsel hscope h1
  have hlk : ∃ r, alookup c.defs X = some r := by
    cases hl : alookup c.defs X with
    | some r => exact ⟨r, rfl⟩
    | none =>
      exfalso
      have hnil : defsOf w c X = [] := by unfold defsOf; rw [hl]
      rw [hnil] at hsel
      simp [selectFrom] at hsel
  obtain ⟨r, hr⟩ := hlk
  have hr1 : alookup c1.defs X = some r := by rw [hdefs]; exact hr
  have hstab : resolve (f + 1) w1 c1 X none = some (w1, c1, Except.ok v) := by
    apply resolve_singleton_cache_hit f w1 c1 X none d v
    · rw [hres]; exact hnr
    · rw [defsOf_congr w w1 c c1 X hh hdefs]; exact hsel
    · exact hscope
    · rw [hiface]; exact hcache1
  refine ⟨hcache1, ?_, ?_, ?_⟩
  · intro n
    induction n with
    | zero => rfl
    | succ k ih =>
      rw [resolveCalls, hstab]
      dsimp only
      rw [ih]
      rw [List.replicate_succ]
  · intro d' hs' hi' hn'
    have hreg' := registerDef_unnamed_existing w1 c1 d' r (by rw [hi']; exact hr1) hn'
    rw [hreg']
    dsimp only
    apply resolve_singleton_cache_hit f _ c1 X none d' v
    · rw [hres]; exact hnr
    · have hnew : defsOf
          ⟨aset w1.heap r (((alookup w1.heap r).getD []) ++ [d']), w1.nextRef, w1.nextObj⟩
          c1 X = ((alookup w1.heap r).getD []) ++ [d'] := by
        unfold defsOf
        rw [hr1]
        dsimp only
        rw [alookup_aset_self]
        rfl
      rw [hnew]
      show (((alookup w1.heap r).getD []) ++ [d']).getLast? = some d'
      exact List.getLast?_concat _
    · exact hs'
    · rw [hi']; exact hcache1
  · rw [unregisterDef, hr1]
    dsimp only
    exact alookup_aerase_self c1.singletons X

/-- The registration used in the C3 witness scenario. -/
def singDefn : Defn := ⟨3, Impl.cls [], Scope.singleton, none, false, false, []⟩

def singSt : World × Container := registerDef ⟨[], 0, 0⟩ emptyContainer singDefn

def singW1 : World := ⟨singSt.1.heap, singSt.1.nextRef, 1⟩

def singC1 : Container := {singSt.2 with singletons := [(3, 0)]}

/-- C3 witness: on a concrete container with interface 3 bound as a
singleton class, the first resolve creates instance 0, and three further
resolve calls all return instance 0 with the state unchanged. -/
theorem singleton_resolve_stable_witness :
    resolve 5 singSt.1 singSt.2 3 none = some (singW1, singC1, Except.ok 0)
    ∧ resolveCalls 5 3 3 singW1 singC1 = some ([0, 0, 0], singW1, singC1) := by
  have h1 : resolve 5 singSt.1 singSt.2 3 none = some (singW1, singC1, Except.ok 0) := by rfl
  exact ⟨h1,
    (singleton_resolve_stable 4 singSt.1 singSt.2 3 singDefn singW1 singC1 0
      (by decide) (by rfl) rfl rfl h1).2.1 3⟩

/-! ## Claim C4: circular dependency detection -/

def cycDefX : Defn := ⟨0, Impl.cls [⟨5, some 1, false⟩], Scope.singleton, none, false, false, []⟩

def cycDefY : Defn := ⟨1, Impl.cls [⟨6, some 0, false⟩], Scope.singleton, none, false, false, []⟩

/-- Two registered singleton classes whose constructors require each
other by type annotation. -/
def cycSt : World × Container :=
  registerDef (registerDef ⟨[], 0, 0⟩ emptyContainer cycDefX).1
    (registerDef ⟨[], 0, 0⟩ emptyContainer cycDefX).2 cycDefY

/-- C4: resolving an interface already being resolved fails immediately
with the circular-dependency error and no state change; every completed
resolve restores the in-progress resolution set (and leaves definitions
and heap untouched); with fuel exceeding the number of registered
interfaces, resolve always returns instead of recursing unboundedly; and
on the concrete two-interface constructor cycle, resolve returns the
circular-dependency error with all state restored. -/
theorem resolve_circular_detection :
    (∀ f w c iface nm, iface ∈ c.resolving →
        resolve (f + 1) w c iface nm = some (w, c, Except.error DIErr.circular))
    ∧ (∀ fuel w c iface nm w' c' r, resolve fuel w c iface nm = some (w', c', r) →
        c'.resolving = c.resolving ∧ c'.defs = c.defs ∧ w'.heap = w.heap)
    ∧ (∀ fuel w c iface nm, unresolvedCount c + 2 ≤ fuel →
        resolve fuel w c iface nm ≠ none)
    ∧ resolve 10 cycSt.1 cycSt.2 0 none
        = some (cycSt.1, cycSt.2, Except.error DIErr.circular) := by
  refine ⟨?_, ?_, resolve_total, by rfl⟩
  · intro f w c iface nm hin
    rw [resolve, if_pos hin]
  · intro fuel w c iface nm w' c' r h
    have hp := resolve_pres fuel w c iface nm
    rw [h] at hp
    exact ⟨hp.2.2.2, hp.2.2.1, hp.1⟩

/-- C4 witness: the circular error on re-entrant resolution, state
restoration, and totality, each at a concrete input. -/
theorem resolve_circular_detection_witness :
    resolve 3 cycSt.1 {cycSt.2 with resolving := [0]} 0 none
      = some (cycSt.1, {cycSt.2 with resolving := [0]}, Except.error DIErr.circular)
    ∧ (cycSt.2.resolving = cycSt.2.resolving ∧ cycSt.2.defs = cycSt.2.defs
        ∧ cycSt.1.heap = cycSt.1.heap)
    ∧ resolve 4 cycSt.1 cycSt.2 0 none ≠ none :=
  ⟨resolve_circular_detection.1 2 cycSt.1 {cycSt.2 with resolving := [0]} 0 none (by decide),
   resolve_circular_detection.2.1 10 cycSt.1 cycSt.2 0 none cycSt.1 cycSt.2
     (Except.error DIErr.circular) resolve_circular_detection.2.2.2,
   resolve_circular_detection.2.2.1 4 cycSt.1 cycSt.2 0 none (by decide)⟩

/-! ## Claim C10: the singleton cache ignores the definition name -/

/-- C10: the singleton cache is keyed by interface alone.  If interface
X carries two singleton definitions under distinct names and
`resolve(X, nameA)` has cached an instance, a later `resolve(X, nameB)`
returns that same cached instance with the state unchanged (so the
implementation registered under nameB is never constructed). -/
theorem singleton_cache_ignores_name_generic (f : Nat) (w : World) (c : Container)
    (X nA nB : Nat) (dA dB : Defn) (w1 : World) (c1 : Container) (v : Nat)
    (hnr : X ∉ c.resolving)
    (hselA : selectFrom (defsOf w c X) (some nA) = some dA)
    (hscopeA : dA.scope = Scope.singleton)
    (hifA : dA.interface = X)
    (hselB : selectFrom (defsOf w c X) (some nB) = some dB)
    (hscopeB : dB.scope = Scope.singleton)
    (hifB : dB.interface = X)
    (h1 : resolve (f + 1) w c X (some nA) = some (w1, c1, Except.ok v)) :
    resolve (f + 1) w1 c1 X (some nB) = some (w1, c1, Except.ok v) := by
  have hp := resolve_pres (f + 1) w c X (some nA)
  rw [h1] at hp
  obtain ⟨hh, hnref, hdefs, hres⟩ := hp
  have hcache : alookup c1.singletons dA.interface = some v :=
    resolve_singleton_caches f w c X (some nA) dA w1 c1 v hnr hselA hscopeA h1
  apply resolve_singleton_cache_hit f w1 c1 X (some nB) dB v
  · rw [hres]; exact hnr
  · rw [defsOf_congr w w1 c c1 X hh hdefs]; exact hselB
  · exact hscopeB
  · rw [hifB, ← hifA]; exact hcache

def namedDefA : Defn := ⟨7, Impl.cls [], Scope.singleton, some 1, false, false, []⟩

def namedDefB : Defn := ⟨7, Impl.fn, Scope.singleton, some 2, false, false, []⟩

/-- Interface 7 registered under two distinct names with two different
implementations. -/
def namedSt : World × Container :=
  registerDef (registerDef ⟨[], 0, 0⟩ emptyContainer namedDefA).1
    (registerDef ⟨[], 0, 0⟩ emptyContainer namedDefA).2 namedDefB

def namedW1 : World := ⟨namedSt.1.heap, namedSt.1.nextRef, 1⟩

def namedC1 : Container := {namedSt.2 with singletons := [(7, 0)]}

/-- C10 witness: after resolve(7, name 1) caches instance 0, resolve(7,
name 2) returns the same instance 0 instead of constructing the name-2
implementation. -/
theorem singleton_cache_ignores_name_witness :
    resolve 5 namedSt.1 namedSt.2 7 (some 1) = some (namedW1, namedC1, Except.ok 0)
    ∧ resolve 5 namedW1 namedC1 7 (some 2) = some (namedW1, namedC1, Except.ok 0) := by
  have h1 : resolve 5 namedSt.1 namedSt.2 7 (some 1)
      = some (namedW1, namedC1, Except.ok 0) := by rfl
  exact ⟨h1,
    singleton_cache_ignores_name_generic 4 namedSt.1 namedSt.2 7 1 2 namedDefA namedDefB
      namedW1 namedC1 0 (by decide) (by rfl) rfl rfl (by rfl) rfl rfl h1⟩

/-! ## Claim C6: child containers -/

theorem registerDef_named_existing (w : World) (c : Container) (d : Defn) (r n : Nat)
    (hr : alookup c.defs d.interface = some r) (hnm : d.name = some n) :
    registerDef w c d
      = (⟨aset w.heap w.nextRef
            ((((alookup w.heap r).getD []).filter (fun e => !(e.name == some n))) ++ [d]),
          w.nextRef + 1, w.nextObj⟩,
         {c with defs := aset c.defs d.interface w.nextRef}) := by
  simp only [registerDef, hr, hnm]

/-- Heap cells below the allocation frontier are untouched by any
`register` that is named or targets a fresh interface. -/
theorem registerDef_heap_low (w : World) (c : Container) (d : Defn) (rj : Nat)
    (hrj : rj < w.nextRef)
    (hcase : d.name ≠ none ∨ alookup c.defs d.interface = none) :
    alookup (registerDef w c d).1.heap rj = alookup w.heap rj := by
  cases halk : alookup c.defs d.interface with
  | some r =>
    rcases hcase with hn | hno
    · cases hnm : d.name with
      | none => exact absurd hnm hn
      | some n =>
        rw [registerDef_named_existing w c d r n halk hnm]
        exact alookup_aset_ne _ _ _ _ (by omega)
    · rw [halk] at hno
      exact Option.noConfusion hno
  | none =>
    cases hnm : d.name with
    | none =>
      simp only [registerDef, halk, hnm, alookup_aset_self]
      rw [alookup_aset_ne _ _ _ _ (by omega)]
      exact alookup_aset_ne _ _ _ _ (by omega)
    | some n =>
      simp only [registerDef, halk, hnm, alookup_aset_self]
      rw [alookup_aset_ne _ _ _ _ (by omega)]
      exact alookup_aset_ne _ _ _ _ (by omega)

/-- Heap cells below the allocation frontier are untouched by
`unregister`. -/
theorem unregisterDef_heap_low (w : World) (c : Container) (i : Nat) (nmq : Option Nat)
    (rj : Nat) (hrj : rj < w.nextRef) :
    alookup (unregisterDef w c i nmq).1.1.heap rj = alookup w.heap rj := by
  cases halk : alookup c.defs i with
  | none => simp only [unregisterDef, halk]
  | some r =>
    cases nmq with
    | none => simp only [unregisterDef, halk]
    | some n =>
      simp only [unregisterDef, halk]
      exact alookup_aset_ne _ _ _ _ (by omega)

/-- C6 (amended): `create_child_container` returns a container whose
definitions map equals the parent's and whose caches start empty, but
the per-interface definition lists are shared objects: an unnamed child
register for an interface inherited from the parent appends to the
parent's definition list too (changing the parent's unnamed resolves),
while named registers, registers for interfaces without an existing
definition list, unregisters, and resolves on the child leave every
definition list the parent sees unchanged. -/
theorem child_container_isolation (p : Container) :
    ((createChildContainer p).defs = p.defs
      ∧ (createChildContainer p).singletons = []
      ∧ (createChildContainer p).requestScope = []
      ∧ (createChildContainer p).resolving = [])
    ∧ (∀ w d r, d.name = none → alookup p.defs d.interface = some r →
        (registerDef w (createChildContainer p) d).2 = createChildContainer p
        ∧ defsOf (registerDef w (createChildContainer p) d).1 p d.interface
            = defsOf w p d.interface ++ [d])
    ∧ (∀ w d, (∀ pr ∈ p.defs, pr.2 < w.nextRef) →
        (d.name ≠ none ∨ alookup p.defs d.interface = none) →
        ∀ j, defsOf (registerDef w (createChildContainer p) d).1 p j = defsOf w p j)
    ∧ (∀ w i nmq, (∀ pr ∈ p.defs, pr.2 < w.nextRef) →
        ∀ j, defsOf (unregisterDef w (createChildContainer p) i nmq).1.1 p j
          = defsOf w p j)
    ∧ (∀ fuel w ch i nm w' c' rr, resolve fuel w ch i nm = some (w', c', rr) →
        ∀ j, defsOf w' p j = defsOf w p j) := by
  refine ⟨⟨rfl, rfl, rfl, rfl⟩, ?_, ?_, ?_, ?_⟩
  · intro w d r hnm hr
    have hreg := registerDef_unnamed_existing w (createChildContainer p) d r hr hnm
    rw [hreg]
    refine ⟨rfl, ?_⟩
    unfold defsOf
    rw [hr]
    dsimp only
    rw [alookup_aset_self]
    rfl
  · intro w d hv hcase j
    unfold defsOf
    cases hl : alookup p.defs j with
    | none => rfl
    | some rj =>
      have hrj := hv (j, rj) (alookup_mem _ _ _ hl)
      dsimp only
      rw [registerDef_heap_low w (createChildContainer p) d rj hrj hcase]
  · intro w i nmq hv j
    unfold defsOf
    cases hl : alookup p.defs j with
    | none => rfl
    | some rj =>
      have hrj := hv (j, rj) (alookup_mem _ _ _ hl)
      dsimp only
      rw [unregisterDef_heap_low w (createChildContainer p) i nmq rj hrj]
  · intro fuel w ch i nm w' c' rr h j
    have hp := resolve_pres fuel w ch i nm
    rw [h] at hp
    exact defsOf_congr w w' p p j hp.1 rfl

def childDefA : Defn := ⟨0, Impl.value 10, Scope.transient, none, false, false, []⟩

def childDefB : Defn := ⟨0, Impl.value 20, Scope.transient, none, false, false, []⟩

def parentSt : World × Container := registerDef ⟨[], 0, 0⟩ emptyContainer childDefA

/-- The child register that the C6 claim says cannot affect the parent. -/
def childSt : World × Container :=
  registerDef parentSt.1 (createChildContainer parentSt.2) childDefB

/-- C6 counterexample: an unnamed register on the child for an interface
inherited from the parent appends to the parent's shared definition
list object: the parent's definitions for the interface change from one
entry to two, and the parent's unnamed resolve switches from the
parent's implementation (object 10) to the child's (object 20). -/
theorem child_register_mutates_parent_cex :
    defsOf parentSt.1 parentSt.2 0 = [childDefA]
    ∧ defsOf childSt.1 parentSt.2 0 = [childDefA, childDefB]
    ∧ resolve 5 parentSt.1 parentSt.2 0 none = some (parentSt.1, parentSt.2, Except.ok 10)
    ∧ resolve 5 childSt.1 parentSt.2 0 none = some (childSt.1, parentSt.2, Except.ok 20) :=
  ⟨rfl, rfl, rfl, rfl⟩

/-- C6 witness for the amended isolation theorem: the unnamed inherited
register appends to the parent's list, while a named register leaves the
parent's view of interface 0 unchanged. -/
theorem child_container_isolation_witness :
    defsOf childSt.1 parentSt.2 0 = defsOf parentSt.1 parentSt.2 0 ++ [childDefB]
    ∧ defsOf (registerDef parentSt.1 (createChildContainer parentSt.2)
        ⟨0, Impl.value 30, Scope.transient, some 5, false, false, []⟩).1 parentSt.2 0
      = defsOf parentSt.1 parentSt.2 0 :=
  ⟨((child_container_isolation parentSt.2).2.1 parentSt.1 childDefB 0 rfl (by rfl)).2,
   (child_container_isolation parentSt.2).2.2.1 parentSt.1
     ⟨0, Impl.value 30, Scope.transient, some 5, false, false, []⟩ (by decide)
     (Or.inl (by decide)) 0⟩

/-! # Plugin registry (`src/mem0_mcp/core/plugin_registry.py`)

`PluginRegistry._resolve_dependencies` builds a dict mapping each loaded
plugin name to its declared dependency list (in plugin insertion order),
then `_topological_sort` runs a depth-first traversal marking nodes
visited before recursing into their registered dependencies and
appending each node to the output after its dependencies. -/

abbrev Graph := List (String × List String)

def keys (g : Graph) : List String := g.map (fun e => e.1)

def glookup : Graph → String → Option (List String)
  | [], _ => none
  | (k, v) :: t, n => if k == n then some v else glookup t n

structure TopoState where
  visited : List String
  stack : List String
deriving DecidableEq, Repr

/-- Appending the node to the output once its dependencies have been
visited (`stack.append(node)` in `_topological_sort.visit`). -/
def visitFinish (node : String) (s : TopoState) : TopoState :=
  ⟨s.visited, s.stack ++ [node]⟩

/-- The recursive `visit` of `PluginRegistry._topological_sort`
(plugin_registry.py lines 171-180), with a fuel bound on recursion
depth: return if the node is already visited, else mark it visited,
visit each of its dependencies that is itself registered, then append
the node to the output. -/
def visit (g : Graph) : Nat → String → TopoState → TopoState
  | 0, _, s => s
  | Nat.succ fl, node, s =>
    if node ∈ s.visited then s
    else
      visitFinish node
        (((glookup g node).getD []).foldl
          (fun t dep => if (glookup g dep).isSome then visit g fl dep t else t)
          ⟨node :: s.visited, s.stack⟩)

/-- One step of the dependency loop inside `visit`: recurse only when
the dependency is registered. -/
def visitStep (g : Graph) (fl : Nat) : TopoState → String → TopoState :=
  fun t dep => if (glookup g dep).isSome then visit g fl dep t else t

theorem visit_succ (g : Graph) (fl : Nat) (node : String) (s : TopoState)
    (hv : node ∉ s.visited) :
    visit g (fl + 1) node s
      = visitFinish node (List.foldl (visitStep g fl) ⟨node :: s.visited, s.stack⟩
          ((glookup g node).getD [])) := by
  rw [visit, if_neg hv]
  rfl

/-- `PluginRegistry._topological_sort` (lines 166-185): run `visit` on
every registered plugin name in insertion order, starting from an empty
visited set and output list. -/
def topologicalSort (g : Graph) : List String :=
  ((keys g).foldl (fun s n => visit g (g.length + 1) n s) ⟨[], []⟩).stack

/-! ## Support lemmas for the traversal -/

theorem glookup_isSome_mem_keys (g : Graph) (n : String)
    (h : (glookup g n).isSome = true) : n ∈ keys g := by
  induction g with
  | nil => simp [glookup] at h
  | cons e t ih =>
    obtain ⟨k, v⟩ := e
    rw [glookup] at h
    by_cases hk : k = n
    · rw [keys, List.map_cons]
      exact hk ▸ List.mem_cons_self _ _
    · rw [if_neg (by simp [hk])] at h
      exact List.mem_cons_of_mem _ (ih h)

theorem glookup_isSome_of_mem_keys (g : Graph) (n : String) (h : n ∈ keys g) :
    (glookup g n).isSome = true := by
  induction g with
  | nil => simp [keys] at h
  | cons e t ih =>
    obtain ⟨k, v⟩ := e
    rw [glookup]
    by_cases hk : k = n
    · rw [if_pos (by simp [hk])]
      rfl
    · rw [if_neg (by simp [hk])]
      rw [keys, List.map_cons, List.mem_cons] at h
      rcases h with h | h
      · exact absurd h.symm hk
      · exact ih h

theorem mem_getD_glookup_isSome (g : Graph) (n dep : String)
    (h : dep ∈ (glookup g n).getD []) : (glookup g n).isSome = true := by
  cases hg : glookup g n with
  | none => rw [hg] at h; simp at h
  | some ds => rfl

theorem glookup_eq_of_mem_nodup (g : Graph) (a : String) (ds : List String)
    (hnd : (keys g).Nodup) (h : (a, ds) ∈ g) : glookup g a = some ds := by
  induction g with
  | nil => simp at h
  | cons e t ih =>
    obtain ⟨k, v⟩ := e
    rw [keys, List.map_cons, List.nodup_cons] at hnd
    rw [List.mem_cons] at h
    rcases h with h | h
    · obtain ⟨hk, hv⟩ := Prod.mk.injEq _ _ _ _ ▸ h
      rw [glookup, if_pos (by simp [hk]), hv]
    · rw [glookup]
      by_cases hk : k = a
      · exfalso
        apply hnd.1
        subst hk
        exact List.mem_map.mpr ⟨(k, ds), h, rfl⟩
      · rw [if_neg (by simp [hk])]
        exact ih hnd.2 h

/-- Strict order of positions in a list: `d` appears strictly before
`a`. -/
def before (l : List String) (d a : String) : Prop :=
  ∃ i j : Nat, i < j ∧ l[i]? = some d ∧ l[j]? = some a

theorem before_append (l l2 : List String) (d a : String) (h : before l d a) :
    before (l ++ l2) d a := by
  obtain ⟨i, j, hij, hi, hj⟩ := h
  have hjl : j < l.length := (List.getElem?_eq_some.mp hj).1
  have hil : i < l.length := lt_trans hij hjl
  exact ⟨i, j, hij, by rw [List.getElem?_append_left hil]; exact hi,
    by rw [List.getElem?_append_left hjl]; exact hj⟩

theorem before_concat (l : List String) (d a : String) (hd : d ∈ l) :
    before (l ++ [a]) d a := by
  obtain ⟨i, hil, hi⟩ := List.getElem_of_mem hd
  refine ⟨i, l.length, hil, ?_, ?_⟩
  · rw [List.getElem?_append_left hil]
    exact List.getElem?_eq_some.mpr ⟨hil, hi⟩
  · rw [List.getElem?_append_right (le_refl _)]
    simp

/-- Handlers of the visited set and output list invariants. -/
def SV (s : TopoState) : Prop := ∀ x, x ∈ s.stack → x ∈ s.visited

def graySame (s t : TopoState) : Prop :=
  ∀ x, (x ∈ t.visited ∧ x ∉ t.stack) ↔ (x ∈ s.visited ∧ x ∉ s.stack)

theorem graySame_refl (s : TopoState) : graySame s s := fun _ => Iff.rfl

theorem graySame_trans {s t u : TopoState} (h1 : graySame s t) (h2 : graySame t u) :
    graySame s u := fun x => (h2 x).trans (h1 x)

/-- Every element of the output list is preceded by all of its
registered dependencies. -/
def OrderedSt (g : Graph) (s : TopoState) : Prop :=
  ∀ a, a ∈ s.stack → ∀ dep, dep ∈ (glookup g a).getD [] → dep ∈ keys g →
    before s.stack dep a

/-- Number of registered names not yet visited. -/
def unvisited (g : Graph) (vis : List String) : Nat :=
  ((keys g).filter (fun k => decide (k ∉ vis))).length

theorem unvisited_mono (g : Graph) (v1 v2 : List String) (h : ∀ x, x ∈ v1 → x ∈ v2) :
    unvisited g v2 ≤ unvisited g v1 :=
  List.Sublist.length_le (filter_sublist_filter (keys g) _ _ (fun x hx => by
    rw [decide_eq_true_iff] at hx
    exact decide_eq_true_iff.mpr (fun hm => hx (h x hm))))

theorem unvisited_strict (g : Graph) (vis : List String) (node : String)
    (hk : node ∈ keys g) (hnv : node ∉ vis) :
    unvisited g (node :: vis) < unvisited g vis :=
  filter_length_lt (keys g) _ _
    (fun x hx => by
      rw [decide_eq_true_iff] at hx
      exact decide_eq_true_iff.mpr (fun hm => hx (List.mem_cons_of_mem _ hm)))
    node hk (decide_eq_true_iff.mpr hnv)
    (decide_eq_false (not_not_intro (List.mem_cons_self node vis)))

theorem unvisited_le_length (g : Graph) (vis : List String) :
    unvisited g vis ≤ g.length := by
  have h1 : unvisited g vis ≤ (keys g).length := List.length_filter_le _ _
  rw [keys, List.length_map] at h1
  exact h1

/-- The dependency loop of `visit` preserves the traversal invariants
(visited only grows, the output only extends, the set of visited-but-not
-output nodes is unchanged, output nodes are visited, the output has no
duplicates and respects dependencies, visited nodes stay within the
initial set plus registered names) and leaves every registered
dependency it processes visited. -/
theorem visit_fold (g : Graph) (rank : String → Nat)
    (hrank : ∀ a ∈ keys g, ∀ b ∈ keys g, b ∈ (glookup g a).getD [] → rank b < rank a)
    (fl : Nat) (node : String) (s1 : TopoState)
    (ihfl : ∀ n t, unvisited g t.visited + 1 ≤ fl →
      (∀ x, x ∈ t.visited → x ∉ t.stack → rank n < rank x) →
      SV t → t.stack.Nodup → OrderedSt g t →
      (∀ x, x ∈ t.visited → x ∈ (visit g fl n t).visited)
      ∧ (∃ ext, (visit g fl n t).stack = t.stack ++ ext)
      ∧ graySame t (visit g fl n t)
      ∧ SV (visit g fl n t)
      ∧ (visit g fl n t).stack.Nodup
      ∧ OrderedSt g (visit g fl n t)
      ∧ n ∈ (visit g fl n t).visited
      ∧ (∀ x, x ∈ (visit g fl n t).visited → x ∈ t.visited ∨ x = n ∨ x ∈ keys g))
    (hfuelb : node ∈ keys g → unvisited g s1.visited + 1 ≤ fl)
    (hg1 : ∀ x, x ∈ s1.visited → x ∉ s1.stack → rank node ≤ rank x) :
    ∀ ds t, (∀ d, d ∈ ds → d ∈ (glookup g node).getD []) →
      (∀ x, x ∈ s1.visited → x ∈ t.visited) →
      (∃ ext, t.stack = s1.stack ++ ext) →
      graySame s1 t → SV t → t.stack.Nodup → OrderedSt g t →
      (∀ x, x ∈ t.visited → x ∈ s1.visited ∨ x ∈ keys g) →
      (∀ x, x ∈ s1.visited → x ∈ (List.foldl (visitStep g fl) t ds).visited)
      ∧ (∃ ext, (List.foldl (visitStep g fl) t ds).stack = s1.stack ++ ext)
      ∧ graySame s1 (List.foldl (visitStep g fl) t ds)
      ∧ SV (List.foldl (visitStep g fl) t ds)
      ∧ (List.foldl (visitStep g fl) t ds).stack.Nodup
      ∧ OrderedSt g (List.foldl (visitStep g fl) t ds)
      ∧ (∀ x, x ∈ (List.foldl (visitStep g fl) t ds).visited → x ∈ s1.visited ∨ x ∈ keys g)
      ∧ (∀ x, x ∈ t.visited → x ∈ (List.foldl (visitStep g fl) t ds).visited)
      ∧ (∀ d, d ∈ ds → (glookup g d).isSome = true →
          d ∈ (List.foldl (visitStep g fl) t ds).visited) := by
  intro ds
  induction ds with
  | nil =>
    intro t hds hmono hext hgray hSVt hNDt hOrdt hdom
    rw [List.foldl_nil]
    exact ⟨hmono, hext, hgray, hSVt, hNDt, hOrdt, hdom, fun x h => h, by simp⟩
  | cons d ds' ih =>
    intro t hds hmono hext hgray hSVt hNDt hOrdt hdom
    rw [List.foldl_cons]
    cases hreg : (glookup g d).isSome with
    | false =>
      have hstep : visitStep g fl t d = t := by
        rw [visitStep, if_neg (by rw [hreg]; exact Bool.false_ne_true)]
      rw [hstep]
      obtain ⟨ja, jb, jc, jd, je, jf, jg, jh, ji⟩ :=
        ih t (fun x hx => hds x (List.mem_cons_of_mem _ hx)) hmono hext hgray hSVt hNDt
          hOrdt hdom
      refine ⟨ja, jb, jc, jd, je, jf, jg, jh, ?_⟩
      intro d0 hd0 hd0reg
      rcases List.mem_cons.mp hd0 with rfl | hd0
      · rw [hreg] at hd0reg
        exact absurd hd0reg Bool.false_ne_true
      · exact ji d0 hd0 hd0reg
    | true =>
      have hstep : visitStep g fl t d = visit g fl d t := by
        rw [visitStep, if_pos hreg]
      rw [hstep]
      have hddep : d ∈ (glookup g node).getD [] := hds d (List.mem_cons_self _ _)
      have hnodek : node ∈ keys g :=
        glookup_isSome_mem_keys g node (mem_getD_glookup_isSome g node d hddep)
      have hdk : d ∈ keys g := glookup_isSome_mem_keys g d hreg
      have hdlt : rank d < rank node := hrank node hnodek d hdk hddep
      have hHin : ∀ x, x ∈ t.visited → x ∉ t.stack → rank d < rank x := by
        intro x hxv hxs
        have hgr := (hgray x).mp ⟨hxv, hxs⟩
        exact lt_of_lt_of_le hdlt (hg1 x hgr.1 hgr.2)
      have hfuel' : unvisited g t.visited + 1 ≤ fl := by
        have h1 := unvisited_mono g s1.visited t.visited hmono
        have h2 := hfuelb hnodek
        omega
      obtain ⟨ia, ib, ic, id', ie, if', ig, ih'⟩ := ihfl d t hfuel' hHin hSVt hNDt hOrdt
      obtain ⟨e1, he1⟩ := hext
      obtain ⟨e2, he2⟩ := ib
      obtain ⟨ja, jb, jc, jd, je, jf, jg, jh, ji⟩ :=
        ih (visit g fl d t) (fun x hx => hds x (List.mem_cons_of_mem _ hx))
          (fun x hx => ia x (hmono x hx))
          ⟨e1 ++ e2, by rw [he2, he1, List.append_assoc]⟩
          (graySame_trans hgray ic) id' ie if'
          (fun x hx => (ih' x hx).elim (fun h => hdom x h)
            (fun h => h.elim (fun he => Or.inr (he ▸ hdk)) Or.inr))
      refine ⟨ja, jb, jc, jd, je, jf, jg, fun x hx => jh x (ia x hx), ?_⟩
      intro d0 hd0 hd0reg
      rcases List.mem_cons.mp hd0 with rfl | hd0
      · exact jh d0 ig
      · exact ji d0 hd0 hd0reg

/-- The main invariant of `visit`: assuming the dependency relation
restricted to registered names decreases a rank function (acyclicity)
and every visited-but-unfinished node outranks the node being visited,
a sufficiently fuelled `visit` grows the visited set, extends the
output, finishes exactly the nodes it visits, keeps the output
duplicate-free and dependency-ordered, and marks its node visited. -/
theorem visit_master (g : Graph) (rank : String → Nat)
    (hrank : ∀ a ∈ keys g, ∀ b ∈ keys g, b ∈ (glookup g a).getD [] → rank b < rank a) :
    ∀ fl node s,
      unvisited g s.visited + 1 ≤ fl →
      (∀ x, x ∈ s.visited → x ∉ s.stack → rank node < rank x) →
      SV s → s.stack.Nodup → OrderedSt g s →
      (∀ x, x ∈ s.visited → x ∈ (visit g fl node s).visited)
      ∧ (∃ ext, (visit g fl node s).stack = s.stack ++ ext)
      ∧ graySame s (visit g fl node s)
      ∧ SV (visit g fl node s)
      ∧ (visit g fl node s).stack.Nodup
      ∧ OrderedSt g (visit g fl node s)
      ∧ node ∈ (visit g fl node s).visited
      ∧ (∀ x, x ∈ (visit g fl node s).visited → x ∈ s.visited ∨ x = node ∨ x ∈ keys g) := by
  intro fl
  induction fl with
  | zero => intro node s hfuel hH hSV hND hOrd; omega
  | succ fl ihfl =>
    intro node s hfuel hH hSV hND hOrd
    by_cases hv : node ∈ s.visited
    · rw [visit, if_pos hv]
      exact ⟨fun x h => h, ⟨[], (List.append_nil _).symm⟩, graySame_refl s, hSV, hND, hOrd,
        hv, fun x h => Or.inl h⟩
    · rw [visit_succ g fl node s hv]
      have hnstack : node ∉ s.stack := fun hns => hv (hSV node hns)
      have hfuelb : node ∈ keys g →
          unvisited g (TopoState.mk (node :: s.visited) s.stack).visited + 1 ≤ fl := by
        intro hnodek
        have h1 := unvisited_strict g s.visited node hnodek hv
        show unvisited g (node :: s.visited) + 1 ≤ fl
        omega
      have hg1 : ∀ x, x ∈ (TopoState.mk (node :: s.visited) s.stack).visited →
          x ∉ (TopoState.mk (node :: s.visited) s.stack).stack → rank node ≤ rank x := by
        intro x hxv hxs
        rcases List.mem_cons.mp hxv with rfl | hxv
        · exact le_refl _
        · exact le_of_lt (hH x hxv hxs)
      have hSV1 : SV (TopoState.mk (node :: s.visited) s.stack) :=
        fun x hx => List.mem_cons_of_mem _ (hSV x hx)
      obtain ⟨fa, fb, fc, fd, fe, ff, fh, fmonoT, fdeps⟩ :=
        visit_fold g rank hrank fl node ⟨node :: s.visited, s.stack⟩ ihfl hfuelb hg1
          ((glookup g node).getD []) ⟨node :: s.visited, s.stack⟩
          (fun d hd => hd) (fun x h => h) ⟨[], (List.append_nil _).symm⟩
          (graySame_refl _) hSV1 hND hOrd (fun x h => Or.inl h)
      have hnodes2 : node ∈ (List.foldl (visitStep g fl) ⟨node :: s.visited, s.stack⟩
          ((glookup g node).getD [])).visited
          ∧ node ∉ (List.foldl (visitStep g fl) ⟨node :: s.visited, s.stack⟩
          ((glookup g node).getD [])).stack :=
        (fc node).mpr ⟨List.mem_cons_self _ _, hnstack⟩
      refine ⟨?_, ?_, ?_, ?_, ?_, ?_, ?_, ?_⟩
      · exact fun x hx => fa x (List.mem_cons_of_mem _ hx)
      · obtain ⟨e, he⟩ := fb
        exact ⟨e ++ [node], by
          show (List.foldl (visitStep g fl) _ _).stack ++ [node] = s.stack ++ (e ++ [node])
          rw [he, List.append_assoc]⟩
      · intro x
        constructor
        · rintro ⟨hxv, hxs⟩
          have hxs2 : x ∉ (List.foldl (visitStep g fl) ⟨node :: s.visited, s.stack⟩
              ((glookup g node).getD [])).stack :=
            fun hh => hxs (List.mem_append.mpr (Or.inl hh))
          have hxn : x ≠ node := fun he => hxs (List.mem_append.mpr (Or.inr (by
            rw [he]; exact List.mem_singleton_self _)))
          have hg := (fc x).mp ⟨hxv, hxs2⟩
          rcases List.mem_cons.mp hg.1 with he | he
          · exact absurd he hxn
          · exact ⟨he, hg.2⟩
        · rintro ⟨hxv, hxs⟩
          have hxn : x ≠ node := fun he => hv (he ▸ hxv)
          have hg := (fc x).mpr ⟨List.mem_cons_of_mem _ hxv, hxs⟩
          exact ⟨hg.1, fun hh => (List.mem_append.mp hh).elim (fun h2 => hg.2 h2)
            (fun h2 => hxn (List.mem_singleton.mp h2))⟩
      · intro x hx
        rcases List.mem_append.mp hx with hx | hx
        · exact fd x hx
        · rw [List.mem_singleton.mp hx]
          exact hnodes2.1
      · show ((List.foldl (visitStep g fl) _ _).stack ++ [node]).Nodup
        rw [List.nodup_append]
        exact ⟨fe, List.nodup_singleton _,
          fun a ha hb => hnodes2.2 ((List.mem_singleton.mp hb) ▸ ha)⟩
      · intro a ha dep hdep hdepk
        rcases List.mem_append.mp ha with ha2 | ha2
        · exact before_append _ _ _ _ (ff a ha2 dep hdep hdepk)
        · have han : a = node := List.mem_singleton.mp ha2
          subst han
          have hnodek : a ∈ keys g :=
            glookup_isSome_mem_keys g a (mem_getD_glookup_isSome g a dep hdep)
          have hdepreg : (glookup g dep).isSome = true :=
            glookup_isSome_of_mem_keys g dep hdepk
          have hdepv := fdeps dep hdep hdepreg
          have hdeplt : rank dep < rank a := hrank a hnodek dep hdepk hdep
          have hdeps2 : dep ∈ (List.foldl (visitStep g fl) ⟨a :: s.visited, s.stack⟩
              ((glookup g a).getD [])).stack := by
            by_contra hns
            have hg := (fc dep).mp ⟨hdepv, hns⟩
            rcases List.mem_cons.mp hg.1 with he | he
            · rw [he] at hdeplt
              exact lt_irrefl _ hdeplt
            · exact lt_asymm (hH dep he hg.2) hdeplt
          exact before_concat _ dep a hdeps2
      · exact hnodes2.1
      · intro x hx
        rcases fh x hx with h | h
        · rcases List.mem_cons.mp h with he | he
          · exact Or.inr (Or.inl he)
          · exact Or.inl he
        · exact Or.inr (Or.inr h)

/-- The top-level loop of `_topological_sort`: starting from the empty
state, visiting every registered name in insertion order keeps the
output duplicate-free and dependency-ordered, with the visited set equal
to the output as a set, and ends with every processed name visited. -/
theorem topo_fold (g : Graph) (rank : String → Nat)
    (hrank : ∀ a ∈ keys g, ∀ b ∈ keys g, b ∈ (glookup g a).getD [] → rank b < rank a) :
    ∀ ns s, (∀ n, n ∈ ns → n ∈ keys g) →
      SV s → (∀ x, x ∈ s.visited → x ∈ s.stack) → s.stack.Nodup → OrderedSt g s →
      (∀ x, x ∈ s.visited → x ∈ keys g) →
      SV (List.foldl (fun t n => visit g (g.length + 1) n t) s ns)
      ∧ (∀ x, x ∈ (List.foldl (fun t n => visit g (g.length + 1) n t) s ns).visited →
          x ∈ (List.foldl (fun t n => visit g (g.length + 1) n t) s ns).stack)
      ∧ (List.foldl (fun t n => visit g (g.length + 1) n t) s ns).stack.Nodup
      ∧ OrderedSt g (List.foldl (fun t n => visit g (g.length + 1) n t) s ns)
      ∧ (∀ x, x ∈ (List.foldl (fun t n => visit g (g.length + 1) n t) s ns).visited →
          x ∈ keys g)
      ∧ (∀ x, x ∈ s.visited →
          x ∈ (List.foldl (fun t n => visit g (g.length + 1) n t) s ns).visited)
      ∧ (∀ n, n ∈ ns →
          n ∈ (List.foldl (fun t n => visit g (g.length + 1) n t) s ns).visited) := by
  intro ns
  induction ns with
  | nil =>
    intro s h1 h2 h3 h4 h5 h6
    exact ⟨h2, h3, h4, h5, h6, fun x h => h, by simp⟩
  | cons n rest ih =>
    intro s hns hSVs hvs hND hOrd hdom
    rw [List.foldl_cons]
    have hnk : n ∈ keys g := hns n (List.mem_cons_self _ _)
    have hH : ∀ x, x ∈ s.visited → x ∉ s.stack → rank n < rank x :=
      fun x hxv hxs => absurd (hvs x hxv) hxs
    have hfl : unvisited g s.visited + 1 ≤ g.length + 1 := by
      have := unvisited_le_length g s.visited
      omega
    obtain ⟨ma, mb, mc, md, me, mf, mg, mh⟩ :=
      visit_master g rank hrank (g.length + 1) n s hfl hH hSVs hND hOrd
    have hvs' : ∀ x, x ∈ (visit g (g.length + 1) n s).visited →
        x ∈ (visit g (g.length + 1) n s).stack := by
      intro x hxv
      by_contra hxs
      have hg := (mc x).mp ⟨hxv, hxs⟩
      exact absurd (hvs x hg.1) hg.2
    have hdom' : ∀ x, x ∈ (visit g (g.length + 1) n s).visited → x ∈ keys g := by
      intro x hxv
      rcases mh x hxv with h | h | h
      · exact hdom x h
      · exact h ▸ hnk
      · exact h
    obtain ⟨ta, tb, tc, td, te, tmono, tf⟩ :=
      ih (visit g (g.length + 1) n s) (fun m hm => hns m (List.mem_cons_of_mem _ hm))
        md hvs' me mf hdom'
    refine ⟨ta, tb, tc, td, te, fun x hx => tmono x (ma x hx), ?_⟩
    intro m hm
    rcases List.mem_cons.mp hm with rfl | hm
    · exact tmono m mg
    · exact tf m hm

/-- `_topological_sort` on an acyclic registered-dependency graph:
the output contains exactly the registered names, has no duplicates, and
places every registered dependency of a name strictly before it. -/
theorem topologicalSort_spec (g : Graph) (rank : String → Nat)
    (hrank : ∀ a ∈ keys g, ∀ b ∈ keys g, b ∈ (glookup g a).getD [] → rank b < rank a) :
    (∀ x, x ∈ topologicalSort g ↔ x ∈ keys g)
    ∧ (topologicalSort g).Nodup
    ∧ (∀ a, a ∈ topologicalSort g → ∀ dep, dep ∈ (glookup g a).getD [] → dep ∈ keys g →
        before (topologicalSort g) dep a) := by
  obtain ⟨ta, tb, tc, td, te, tmono, tf⟩ :=
    topo_fold g rank hrank (keys g) ⟨[], []⟩ (fun n h => h)
      (fun x h => absurd h (List.not_mem_nil x))
      (fun x h => absurd h (List.not_mem_nil x))
      List.nodup_nil
      (fun a ha => absurd ha (List.not_mem_nil a))
      (fun x h => absurd h (List.not_mem_nil x))
  refine ⟨?_, tc, td⟩
  intro x
  constructor
  · intro hx
    exact te x (ta x hx)
  · intro hx
    exact tb x (tf x hx)

/-! ## Plugin initialization (`PluginRegistry._initialize_plugins`) -/

/-- Python dict `del` on the plugin map. -/
def gremove (g : Graph) (n : String) : Graph := g.filter (fun e => !(e.1 == n))

/-- Lifecycle calls made during initialization. -/
inductive LCall
  | initCall (n : String)
  | loadCall (n : String)
deriving DecidableEq, Repr

/-- `PluginRegistry._initialize_plugins` (plugin_registry.py lines
187-198): for each plugin name in load order, call `initialize` then
`on_load`; if either raises, the plugin is removed from the registry and
the loop continues.  Returns the trace of lifecycle calls made and the
surviving plugin map. -/
def initializePlugins (initOk loadOk : String → Bool) :
    List String → Graph → List LCall × Graph
  | [], pl => ([], pl)
  | n :: rest, pl =>
    if initOk n then
      if loadOk n then
        (LCall.initCall n :: LCall.loadCall n :: (initializePlugins initOk loadOk rest pl).1,
          (initializePlugins initOk loadOk rest pl).2)
      else
        (LCall.initCall n :: LCall.loadCall n
            :: (initializePlugins initOk loadOk rest (gremove pl n)).1,
          (initializePlugins initOk loadOk rest (gremove pl n)).2)
    else
      (LCall.initCall n :: (initializePlugins initOk loadOk rest (gremove pl n)).1,
        (initializePlugins initOk loadOk rest (gremove pl n)).2)

/-- The ordering and initialization phase of
`PluginRegistry.discover_and_load` (lines 79-83): compute the load order
by topological sort, then initialize the plugins in that order. -/
def discoverAndLoadInit (initOk loadOk : String → Bool) (g : Graph) : List LCall × Graph :=
  initializePlugins initOk loadOk (topologicalSort g) g

/-- The trace `initialize`/`on_load` produces when every hook succeeds. -/
def fullInitTrace : List String → List LCall
  | [] => []
  | n :: t => LCall.initCall n :: LCall.loadCall n :: fullInitTrace t

theorem initializePlugins_success (initOk loadOk : String → Bool) :
    ∀ order pl, (∀ n, n ∈ order → initOk n = true ∧ loadOk n = true) →
      initializePlugins initOk loadOk order pl = (fullInitTrace order, pl) := by
  intro order
  induction order with
  | nil => intro pl h; rfl
  | cons n rest ih =>
    intro pl h
    have hn := h n (List.mem_cons_self _ _)
    rw [initializePlugins, if_pos hn.1, if_pos hn.2,
      ih pl (fun m hm => h m (List.mem_cons_of_mem _ hm))]
    rfl

/-- C1: for every registered plugin map whose declared dependency graph,
restricted to registered plugin names, is acyclic (witnessed by a rank
function that decreases along registered dependency edges),
`discover_and_load` computes a load order in which every registered
plugin appears exactly once and strictly after each of its declared
dependencies that is itself registered (dependencies naming unregistered
plugins are ignored for ordering), and then initializes the plugins
(`initialize` followed by `on_load`) in exactly that order. -/
theorem discover_and_load_topological (g : Graph) (rank : String → Nat)
    (initOk loadOk : String → Bool)
    (hnd : (keys g).Nodup)
    (hrank : ∀ a ∈ keys g, ∀ b ∈ keys g, b ∈ (glookup g a).getD [] → rank b < rank a)
    (hok : ∀ n, n ∈ keys g → initOk n = true ∧ loadOk n = true) :
    (∀ x, x ∈ topologicalSort g ↔ x ∈ keys g)
    ∧ (topologicalSort g).Nodup
    ∧ (∀ a ds, (a, ds) ∈ g → ∀ dep, dep ∈ ds → dep ∈ keys g →
        before (topologicalSort g) dep a)
    ∧ (discoverAndLoadInit initOk loadOk g).1 = fullInitTrace (topologicalSort g)
    ∧ (discoverAndLoadInit initOk loadOk g).2 = g := by
  obtain ⟨hiff, hnodup, hord⟩ := topologicalSort_spec g rank hrank
  have hsucc : initializePlugins initOk loadOk (topologicalSort g) g
      = (fullInitTrace (topologicalSort g), g) :=
    initializePlugins_success initOk loadOk (topologicalSort g) g
      (fun n hn => hok n ((hiff n).mp hn))
  refine ⟨hiff, hnodup, ?_, ?_, ?_⟩
  · intro a ds hmem dep hdep hdepk
    have ha : a ∈ topologicalSort g :=
      (hiff a).mpr (List.mem_map.mpr ⟨(a, ds), hmem, rfl⟩)
    have hglook : glookup g a = some ds := glookup_eq_of_mem_nodup g a ds hnd hmem
    refine hord a ha dep ?_ hdepk
    rw [hglook]
    exact hdep
  · rw [discoverAndLoadInit, hsucc]
  · rw [discoverAndLoadInit, hsucc]

def gABC : Graph := [("A", []), ("B", ["A"]), ("C", ["B"])]

def rankABC : String → Nat := fun n => if n = "A" then 0 else if n = "B" then 1 else 2

/-- C1 witness: on the concrete three-plugin chain A, B (depends on A),
C (depends on B), the load order contains each plugin, is
duplicate-free, places A before B, and the initialization trace runs
initialize/on_load in exactly the load order. -/
theorem discover_and_load_topological_witness :
    "A" ∈ topologicalSort gABC
    ∧ (topologicalSort gABC).Nodup
    ∧ before (topologicalSort gABC) "A" "B"
    ∧ (discoverAndLoadInit (fun _ => true) (fun _ => true) gABC).1
        = fullInitTrace (topologicalSort gABC) := by
  have h := discover_and_load_topological gABC rankABC (fun _ => true) (fun _ => true)
    (by decide) (by decide) (by decide)
  exact ⟨(h.1 "A").mpr (by decide), h.2.1,
    h.2.2.1 "B" ["A"] (by decide) "A" (by decide) (by decide), h.2.2.2.1⟩

/-! ## Claim C5: `reload_plugin` -/

def slookup {β : Type} : List (String × β) → String → Option β
  | [], _ => none
  | (k2, v) :: t, k => if k2 == k then some v else slookup t k

def serase {β : Type} (l : List (String × β)) (k : String) : List (String × β) :=
  l.filter (fun e => !(e.1 == k))

theorem slookup_serase_self {β : Type} (l : List (String × β)) (k : String) :
    slookup (serase l k) k = none := by
  induction l with
  | nil => rfl
  | cons e t ih =>
    obtain ⟨k2, v2⟩ := e
    rw [serase, List.filter_cons]
    by_cases hk : k2 = k
    · rw [if_neg (by simp [hk])]
      exact ih
    · rw [if_pos (by simp [hk]), slookup, if_neg (by simp [hk])]
      exact ih

theorem slookup_serase_ne {β : Type} (l : List (String × β)) (k m : String) (h : m ≠ k) :
    slookup (serase l k) m = slookup l m := by
  induction l with
  | nil => rfl
  | cons e t ih =>
    obtain ⟨k2, v2⟩ := e
    rw [serase, List.filter_cons]
    by_cases hk : k2 = k
    · rw [if_neg (by simp [hk]), slookup, if_neg (by simp [hk, Ne.symm h])]
      exact ih
    · rw [if_pos (by simp [hk]), slookup, slookup]
      by_cases hm : k2 = m
      · rw [if_pos (by simp [hm]), if_pos (by simp [hm])]
      · rw [if_neg (by simp [hm]), if_neg (by simp [hm])]
        exact ih

theorem slookup_append_single_self {β : Type} (l : List (String × β)) (k : String) (v : β)
    (h : slookup l k = none) : slookup (l ++ [(k, v)]) k = some v := by
  induction l with
  | nil => simp [slookup]
  | cons e t ih =>
    obtain ⟨k2, v2⟩ := e
    rw [slookup] at h
    rw [List.cons_append, slookup]
    by_cases hk : k2 = k
    · rw [if_pos (by simp [hk])] at h
      exact Option.noConfusion h
    · rw [if_neg (by simp [hk])] at h
      rw [if_neg (by simp [hk])]
      exact ih h

theorem slookup_append_single_ne {β : Type} (l : List (String × β)) (k m : String) (v : β)
    (h : m ≠ k) : slookup (l ++ [(k, v)]) m = slookup l m := by
  induction l with
  | nil => simp [slookup, Ne.symm h]
  | cons e t ih =>
    obtain ⟨k2, v2⟩ := e
    rw [List.cons_append, slookup, slookup]
    by_cases hm : k2 = m
    · rw [if_pos (by simp [hm]), if_pos (by simp [hm])]
    · rw [if_neg (by simp [hm]), if_neg (by simp [hm])]
      exact ih

/-- A plugin instance held by the registry: the class it was built from,
the object identity of this instance, and its stored config. -/
structure PluginInst where
  classId : Nat
  instId : Nat
  config : Nat
deriving DecidableEq, Repr

/-- Outcomes of the lifecycle hooks run during a reload of one plugin:
whether `on_unload`, `teardown`, re-instantiation, `initialize`,
`on_load`, and `on_start` complete without raising. -/
structure ReloadEnv where
  unloadOk : Bool
  teardownOk : Bool
  instantiateOk : Bool
  initializeOk : Bool
  onLoadOk : Bool
  onStartOk : Bool
deriving DecidableEq, Repr

/-- The parts of `PluginRegistry` state that `reload_plugin` touches:
the plugin map, the per-capability name lists, and a counter providing
fresh object identities for new instances. -/
structure Registry where
  plugins : List (String × PluginInst)
  pluginTypes : List (Nat × List String)
  nextInst : Nat
deriving DecidableEq, Repr

/-- Appending a plugin name to one capability list
(`self._plugin_types[base_class].append(...)` on a defaultdict). -/
def tysAppend (tl : List (Nat × List String)) (ty : Nat) (n : String) :
    List (Nat × List String) :=
  match alookup tl ty with
  | some l => aset tl ty (l ++ [n])
  | none => aset tl ty [n]

/-- `PluginRegistry._load_plugin_class` (plugin_registry.py lines
88-111): instantiate the class — an exception here is caught inside this
method, which logs and returns leaving the registry unchanged; skip if
the plugin name is already registered; otherwise add the new instance to
the plugin map and record its name under its capability types. -/
def loadPluginClass (env : ReloadEnv) (typesOf : Nat → List Nat) (reg : Registry)
    (cls config : Nat) (name : String) : Registry :=
  if env.instantiateOk = false then reg
  else if (slookup reg.plugins name).isSome then reg
  else
    { plugins := reg.plugins ++ [(name, ⟨cls, reg.nextInst, config⟩)],
      pluginTypes := (typesOf cls).foldl (fun tl ty => tysAppend tl ty name) reg.pluginTypes,
      nextInst := reg.nextInst + 1 }

/-- `PluginRegistry.reload_plugin` (plugin_registry.py lines 268-303):
return False if the name is unknown; otherwise run `on_unload` and
`teardown` on the old instance, delete it from the plugin map and the
capability lists, re-instantiate its class with the old config via
`_load_plugin_class`, re-read the map (raising KeyError if the silent
re-instantiation failed), then run `initialize`, `on_load`, `on_start`
on the new instance; any exception is caught by the surrounding
`except`, which returns False with the registry as it stands. -/
def reloadPlugin (env : ReloadEnv) (typesOf : Nat → List Nat) (reg : Registry)
    (name : String) : Registry × Bool :=
  match slookup reg.plugins name with
  | none => (reg, false)
  | some plugin =>
    if env.unloadOk = false then (reg, false)
    else if env.teardownOk = false then (reg, false)
    else
      let reg2 := loadPluginClass env typesOf
        { plugins := serase reg.plugins name,
          pluginTypes := reg.pluginTypes.map (fun e => (e.1, e.2.erase name)),
          nextInst := reg.nextInst }
        plugin.classId plugin.config name
      match slookup reg2.plugins name with
      | none => (reg2, false)
      | some _ =>
        if env.initializeOk = false then (reg2, false)
        else if env.onLoadOk = false then (reg2, false)
        else if env.onStartOk = false then (reg2, false)
        else (reg2, true)

theorem reloadPlugin_early_fail (env : ReloadEnv) (typesOf : Nat → List Nat) (reg : Registry)
    (name : String) (plugin : PluginInst)
    (hfound : slookup reg.plugins name = some plugin)
    (h : env.unloadOk = false ∨ env.teardownOk = false) :
    reloadPlugin env typesOf reg name = (reg, false) := by
  rcases h with h | h
  · simp [reloadPlugin, hfound, h]
  · cases hu : env.unloadOk with
    | false => simp [reloadPlugin, hfound, hu]
    | true => simp [reloadPlugin, hfound, hu, h]

theorem reloadPlugin_instantiate_fail (env : ReloadEnv) (typesOf : Nat → List Nat)
    (reg : Registry) (name : String) (plugin : PluginInst)
    (hfound : slookup reg.plugins name = some plugin)
    (hu : env.unloadOk = true) (ht : env.teardownOk = true)
    (hi : env.instantiateOk = false) :
    reloadPlugin env typesOf reg name
      = ({ plugins := serase reg.plugins name,
           pluginTypes := reg.pluginTypes.map (fun e => (e.1, e.2.erase name)),
           nextInst := reg.nextInst }, false) := by
  simp [reloadPlugin, hfound, hu, ht, loadPluginClass, hi, slookup_serase_self]

theorem reloadPlugin_reinstated (env : ReloadEnv) (typesOf : Nat → List Nat)
    (reg : Registry) (name : String) (plugin : PluginInst)
    (hfound : slookup reg.plugins name = some plugin)
    (hu : env.unloadOk = true) (ht : env.teardownOk = true)
    (hi : env.instantiateOk = true) :
    reloadPlugin env typesOf reg name
      = ({ plugins := serase reg.plugins name
             ++ [(name, ⟨plugin.classId, reg.nextInst, plugin.config⟩)],
           pluginTypes := (typesOf plugin.classId).foldl
             (fun tl ty => tysAppend tl ty name)
             (reg.pluginTypes.map (fun e => (e.1, e.2.erase name))),
           nextInst := reg.nextInst + 1 },
         env.initializeOk && env.onLoadOk && env.onStartOk) := by
  have hser := slookup_serase_self reg.plugins name
  have happ := slookup_append_single_self (serase reg.plugins name) name
    (⟨plugin.classId, reg.nextInst, plugin.config⟩ : PluginInst) hser
  cases h1 : env.initializeOk <;> cases h2 : env.onLoadOk <;> cases h3 : env.onStartOk <;>
    simp [reloadPlugin, hfound, hu, ht, loadPluginClass, hi, hser, happ, h1, h2, h3]

/-- C5 (amended): reload_plugin returns True exactly when the full
on_unload, teardown, re-instantiation, initialize, on_load, on_start
sequence succeeds, and other plugins are untouched either way; but on
failure the registration state depends on the failing step: an
on_unload/teardown failure leaves the registry (with the old instance)
unchanged, a re-instantiation failure leaves the plugin unregistered,
and an initialize/on_load/on_start failure leaves the freshly created
instance registered. -/
theorem reload_plugin_characterization (env : ReloadEnv) (typesOf : Nat → List Nat)
    (reg : Registry) (name : String) (plugin : PluginInst)
    (hfound : slookup reg.plugins name = some plugin) :
    ((reloadPlugin env typesOf reg name).2 = true ↔
      env.unloadOk = true ∧ env.teardownOk = true ∧ env.instantiateOk = true
      ∧ env.initializeOk = true ∧ env.onLoadOk = true ∧ env.onStartOk = true)
    ∧ ((env.unloadOk = false ∨ env.teardownOk = false) →
        (reloadPlugin env typesOf reg name).1 = reg)
    ∧ (env.unloadOk = true → env.teardownOk = true → env.instantiateOk = false →
        slookup (reloadPlugin env typesOf reg name).1.plugins name = none)
    ∧ (env.unloadOk = true → env.teardownOk = true → env.instantiateOk = true →
        slookup (reloadPlugin env typesOf reg name).1.plugins name
          = some ⟨plugin.classId, reg.nextInst, plugin.config⟩)
    ∧ (∀ m, m ≠ name →
        slookup (reloadPlugin env typesOf reg name).1.plugins m = slookup reg.plugins m) := by
  refine ⟨?_, ?_, ?_, ?_, ?_⟩
  · cases hu : env.unloadOk with
    | false =>
      rw [reloadPlugin_early_fail env typesOf reg name plugin hfound (Or.inl hu)]
      simp [hu]
    | true =>
      cases ht : env.teardownOk with
      | false =>
        rw [reloadPlugin_early_fail env typesOf reg name plugin hfound (Or.inr ht)]
        simp [ht]
      | true =>
        cases hi : env.instantiateOk with
        | false =>
          rw [reloadPlugin_instantiate_fail env typesOf reg name plugin hfound hu ht hi]
          simp [hi]
        | true =>
          rw [reloadPlugin_reinstated env typesOf reg name plugin hfound hu ht hi]
          simp [hu, ht, hi, Bool.and_eq_true, and_assoc]
  · intro h
    rw [reloadPlugin_early_fail env typesOf reg name plugin hfound h]
  · intro hu ht hi
    rw [reloadPlugin_instantiate_fail env typesOf reg name plugin hfound hu ht hi]
    exact slookup_serase_self _ _
  · intro hu ht hi
    rw [reloadPlugin_reinstated env typesOf reg name plugin hfound hu ht hi]
    exact slookup_append_single_self _ _ _ (slookup_serase_self _ _)
  · intro m hm
    cases hu : env.unloadOk with
    | false =>
      rw [reloadPlugin_early_fail env typesOf reg name plugin hfound (Or.inl hu)]
    | true =>
      cases ht : env.teardownOk with
      | false =>
        rw [reloadPlugin_early_fail env typesOf reg name plugin hfound (Or.inr ht)]
      | true =>
        cases hi : env.instantiateOk with
        | false =>
          rw [reloadPlugin_instantiate_fail env typesOf reg name plugin hfound hu ht hi]
          exact slookup_serase_ne _ _ _ hm
        | true =>
          rw [reloadPlugin_reinstated env typesOf reg name plugin hfound hu ht hi]
          show slookup (serase reg.plugins name
            ++ [(name, ⟨plugin.classId, reg.nextInst, plugin.config⟩)]) m
              = slookup reg.plugins m
          rw [slookup_append_single_ne _ _ _ _ hm]
          exact slookup_serase_ne _ _ _ hm

def reloadReg : Registry := ⟨[("p", ⟨0, 0, 0⟩), ("q", ⟨1, 1, 0⟩)], [(0, ["p", "q"])], 2⟩

def envInitFail : ReloadEnv := ⟨true, true, true, false, true, true⟩

/-- C5 counterexample: when `initialize` on the re-created instance
raises, reload_plugin returns False but the plugin stays registered (the
fresh half-initialized instance remains in the plugin map); when
`on_unload` raises, the old instance likewise remains registered. -/
theorem reload_plugin_leaves_registered_cex :
    (reloadPlugin envInitFail (fun _ => [0]) reloadReg "p").2 = false
    ∧ (slookup (reloadPlugin envInitFail (fun _ => [0]) reloadReg "p").1.plugins "p").isSome
        = true
    ∧ (reloadPlugin ⟨false, true, true, true, true, true⟩ (fun _ => [0]) reloadReg "p").2
        = false
    ∧ slookup (reloadPlugin ⟨false, true, true, true, true, true⟩ (fun _ => [0])
        reloadReg "p").1.plugins "p" = some ⟨0, 0, 0⟩ :=
  ⟨rfl, rfl, rfl, rfl⟩

/-- C5 witness: a fully successful reload returns True, and the failing
reload leaves the unrelated plugin q untouched. -/
theorem reload_plugin_characterization_witness :
    (reloadPlugin ⟨true, true, true, true, true, true⟩ (fun _ => [0]) reloadReg "p").2 = true
    ∧ slookup (reloadPlugin envInitFail (fun _ => [0]) reloadReg "p").1.plugins "q"
        = slookup reloadReg.plugins "q" := by
  have h1 := reload_plugin_characterization ⟨true, true, true, true, true, true⟩
    (fun _ => [0]) reloadReg "p" ⟨0, 0, 0⟩ (by rfl)
  have h2 := reload_plugin_characterization envInitFail (fun _ => [0]) reloadReg "p"
    ⟨0, 0, 0⟩ (by rfl)
  exact ⟨h1.1.mpr ⟨rfl, rfl, rfl, rfl, rfl, rfl⟩, h2.2.2.2.2 "q" (by decide)⟩

end Mem0
